import Mathlib

/-!
Image-processing backend (`backend/app.js`): validation, persistence, job processing.

A shallow embedding of the upload handler, the URL validator and the queue
handler of `backend/app.js`, with the properties of the batch pipeline proved
over it.

Modelling conventions.
* A JavaScript string is a `Str`, a list of characters.  Every character the
  code inspects (the comma, the white space removed by `trim`, the ASCII classes
  of the URL pattern) is a single UTF-16 code unit, so reading a string as a
  list of code points loses nothing the code looks at.
* `undefined` is `none`; a CSV row is a partial map from column name to cell.
* The parser emits a `headers` event for the first line of the file, and none for
  an empty file: the header list of a payload is optional.
* The PostgreSQL tables are lists of rows; `INSERT` appends a row and `UPDATE`
  rewrites every row that satisfies its `WHERE` clause.  Queries do not fail.
* The outside world (HTTP fetch, `sharp`, the file system, the clock) is a
  `World`, indexed by the number of `compressImage` calls made so far.
-/

namespace ImageBackend

/-- JavaScript string. -/
abbrev Str := List Char

/-! ## `String.prototype.split(',')`, `join(',')`, `trim()` -/

/-- `s.split(',')`: the pieces of `s` between commas (never an empty list). -/
def jsSplit : Str → List Str
  | [] => [[]]
  | c :: cs =>
    match jsSplit cs with
    | [] => if c = ',' then [[], []] else [[c]]
    | piece :: pieces => if c = ',' then [] :: piece :: pieces else (c :: piece) :: pieces

/-- `xs.join(',')`. -/
def jsJoin : List Str → Str
  | [] => []
  | [x] => x
  | x :: y :: rest => x ++ ',' :: jsJoin (y :: rest)

/-- White space and line terminators, as removed by `String.prototype.trim`. -/
def isJsWhitespace (c : Char) : Bool :=
  let n := c.toNat
  n = 0x09 || n = 0x0A || n = 0x0B || n = 0x0C || n = 0x0D || n = 0x20 || n = 0xA0 ||
  n = 0x1680 || (0x2000 ≤ n && n ≤ 0x200A) || n = 0x2028 || n = 0x2029 || n = 0x202F ||
  n = 0x205F || n = 0x3000 || n = 0xFEFF

/-- `s.trim()`. -/
def jsTrim (s : Str) : Str :=
  ((s.dropWhile isJsWhitespace).reverse.dropWhile isJsWhitespace).reverse

/-! ## Regular expressions (`new RegExp(..., 'i')`, used through `test`) -/

/-- Regular expressions over characters; `cls p` is a one-character class. -/
inductive Regex where
  | fail : Regex
  | eps : Regex
  | cls : (Char → Bool) → Regex
  | alt : Regex → Regex → Regex
  | seq : Regex → Regex → Regex
  | star : Regex → Regex

namespace Regex

/-- `r?` -/
def opt (r : Regex) : Regex := alt r eps

/-- `r+` -/
def plus (r : Regex) : Regex := seq r (star r)

/-- A literal character under the `i` flag: compared after case folding.  Only
the ASCII letters fold onto an ASCII character (a character outside ASCII is
never folded into ASCII when the pattern has no `u` flag). -/
def chr (c : Char) : Regex := cls (fun x => x.toLower == c.toLower)

/-- A literal string under the `i` flag. -/
def lit : List Char → Regex
  | [] => eps
  | c :: cs => seq (chr c) (lit cs)

/-- Whether `r` matches the empty string. -/
def nullable : Regex → Bool
  | fail => false
  | eps => true
  | cls _ => false
  | alt a b => nullable a || nullable b
  | seq a b => nullable a && nullable b
  | star _ => true

/-- Brzozowski derivative: what is left of `r` after reading `c`. -/
def deriv : Regex → Char → Regex
  | fail, _ => fail
  | eps, _ => fail
  | cls p, c => if p c then eps else fail
  | alt a b, c => alt (deriv a c) (deriv b c)
  | seq a b, c => if nullable a then alt (seq (deriv a c) b) (deriv b c) else seq (deriv a c) b
  | star a, c => seq (deriv a c) (star a)

/-- Whether the whole of `s` matches `r` (a pattern anchored by `^` and `$`). -/
def test : Regex → List Char → Bool
  | r, [] => nullable r
  | r, c :: cs => test (deriv r c) cs

/-- The strings denoted by a regular expression. -/
def Matches : Regex → List Char → Prop
  | fail, _ => False
  | eps, s => s = []
  | cls p, s => ∃ c, s = [c] ∧ p c = true
  | alt a b, s => Matches a s ∨ Matches b s
  | seq a b, s => ∃ u v, s = u ++ v ∧ Matches a u ∧ Matches b v
  | star a, s => ∃ L : List (List Char), s = L.flatten ∧ ∀ u ∈ L, Matches a u

end Regex

/-- What JavaScript code throws, or a promise rejects with. -/
inductive JsError where
  /-- The `TypeError` of reading a property of `undefined`. -/
  | typeError : JsError
  /-- An error raised by a library call (network, decoder, file system). -/
  | external : Str → JsError
  deriving DecidableEq

deriving instance DecidableEq for Except

/-! ## `isValidUrl` and `isValidUrlList` -/

/-- `[a-z]` under the `i` flag. -/
def isLetter (c : Char) : Bool := 'a' ≤ c.toLower && c.toLower ≤ 'z'

/-- `\d` -/
def isDigit (c : Char) : Bool := '0' ≤ c && c ≤ '9'

/-- `[a-z\d]` under the `i` flag. -/
def isAlnum (c : Char) : Bool := isLetter c || isDigit c

/-- `[a-z\d-]` under the `i` flag. -/
def isAlnumHyphen (c : Char) : Bool := isAlnum c || c = '-'

/-- `[-a-z\d%_.~+]` under the `i` flag. -/
def isPathChar (c : Char) : Bool :=
  c = '-' || isAlnum c || c = '%' || c = '_' || c = '.' || c = '~' || c = '+'

/-- `[;&a-z\d%_.~+=-]` under the `i` flag. -/
def isQueryChar (c : Char) : Bool :=
  c = ';' || c = '&' || isAlnum c || c = '%' || c = '_' || c = '.' || c = '~' || c = '+' ||
  c = '=' || c = '-'

/-- `[-a-z\d_]` under the `i` flag. -/
def isFragmentChar (c : Char) : Bool := c = '-' || isAlnum c || c = '_'

open Regex in
/-- `(https?:\/\/)?` -/
def protocolPattern : Regex :=
  opt (seq (lit "http".toList) (seq (opt (chr 's')) (lit "://".toList)))

open Regex in
/-- `([a-z\d]([a-z\d-]*[a-z\d])*)` -/
def labelPattern : Regex :=
  seq (cls isAlnum) (star (seq (star (cls isAlnumHyphen)) (cls isAlnum)))

open Regex in
/-- `(([a-z\d]([a-z\d-]*[a-z\d])*)\.?)+[a-z]{2,}` -/
def domainPattern : Regex :=
  seq (plus (seq labelPattern (opt (chr '.'))))
    (seq (cls isLetter) (seq (cls isLetter) (star (cls isLetter))))

open Regex in
/-- `\d{1,3}` -/
def octetPattern : Regex := seq (cls isDigit) (seq (opt (cls isDigit)) (opt (cls isDigit)))

open Regex in
/-- `((\d{1,3}\.){3}\d{1,3})` -/
def ipPattern : Regex :=
  seq (seq octetPattern (chr '.')) (seq (seq octetPattern (chr '.'))
    (seq (seq octetPattern (chr '.')) octetPattern))

open Regex in
/-- `(\:\d+)?` -/
def portPattern : Regex := opt (seq (chr ':') (plus (cls isDigit)))

open Regex in
/-- `(\/[-a-z\d%_.~+]*)*` -/
def pathPattern : Regex := star (seq (chr '/') (star (cls isPathChar)))

open Regex in
/-- `(\?[;&a-z\d%_.~+=-]*)?` -/
def queryPattern : Regex := opt (seq (chr '?') (star (cls isQueryChar)))

open Regex in
/-- `(\#[-a-z\d_]*)?` -/
def fragmentPattern : Regex := opt (seq (chr '#') (star (cls isFragmentChar)))

open Regex in
/-- The pattern built in `isValidUrl`, between its `^` and `$`. -/
def urlPattern : Regex :=
  seq protocolPattern (seq (alt domainPattern ipPattern)
    (seq portPattern (seq pathPattern (seq queryPattern fragmentPattern))))

/-- `isValidUrl(url)`: `!!urlPattern.test(url)`. -/
def isValidUrl (url : Str) : Bool := Regex.test urlPattern url

/-- `isValidUrlList(urls)`; `undefined.split` throws a `TypeError`. -/
def isValidUrlList (urls : Option Str) : Except JsError Bool :=
  match urls with
  | none => .error .typeError
  | some urls => .ok ((jsSplit urls).all fun url => isValidUrl (jsTrim url))

/-! ## Data model -/

/-- The two values the code writes into a `status` column. -/
inductive Status where
  | PENDING
  | COMPLETED
  deriving DecidableEq, Repr

/-- A row of `requests (id, status)`. -/
structure RequestRow where
  id : Str
  status : Status
  deriving DecidableEq

/-- A row of `products`; `output_image_urls` is `NULL` until the first update. -/
structure ProductRow where
  request_id : Str
  product_name : Str
  input_image_urls : Str
  output_image_urls : Option Str
  status : Status
  deriving DecidableEq

/-- The relational store. -/
structure Store where
  requests : List RequestRow
  products : List ProductRow
  deriving DecidableEq

/-- An element of the `products` array built by the upload handler. -/
structure Product where
  serialNumber : Str
  productName : Str
  inputImageUrls : List Str
  deriving DecidableEq

/-- The payload of a queue job, `job.data`. -/
structure Job where
  requestId : Str
  products : List Product
  deriving DecidableEq

/-- `INSERT INTO requests (id, status) VALUES ($1, $2)` with status `PENDING`. -/
def insertRequest (db : Store) (requestId : Str) : Store :=
  { db with requests := db.requests ++ [{ id := requestId, status := .PENDING }] }

/-- `INSERT INTO products (request_id, product_name, input_image_urls, status)
VALUES ($1, $2, $3, $4)` with status `PENDING`. -/
def insertProduct (db : Store) (requestId : Str) (product : Product) : Store :=
  { db with products := db.products ++
      [{ request_id := requestId, product_name := product.productName,
         input_image_urls := jsJoin product.inputImageUrls,
         output_image_urls := none, status := .PENDING }] }

/-- `UPDATE products SET output_image_urls = $1, status = $2
WHERE request_id = $3 AND product_name = $4` with status `COMPLETED`. -/
def updateProduct (db : Store) (output requestId productName : Str) : Store :=
  { db with products := db.products.map fun r =>
      if r.request_id = requestId ∧ r.product_name = productName then
        { r with output_image_urls := some output, status := .COMPLETED }
      else r }

/-- `UPDATE requests SET status = $1 WHERE id = $2` with status `COMPLETED`. -/
def completeRequest (db : Store) (requestId : Str) : Store :=
  { db with requests := db.requests.map fun q =>
      if q.id = requestId then { q with status := .COMPLETED } else q }

/-! ## The upload handler, `app.post('/upload')` -/

/-- A parsed CSV row: a cell per column name the line reached. -/
abbrev Row := Str → Option Str

/-- What the CSV parser emits before `end`: a `headers` event when the file has a first
line (`none` for an empty file, where the parser emits only `end`), then one `data` event
per row. -/
structure Payload where
  headers : Option (List Str)
  rows : List Row

def colSerial : Str := "S. No.".toList
def colName : Str := "Product Name".toList
def colUrls : Str := "Input Image Urls".toList

def msgMissingColumns : Str :=
  "Invalid CSV format: Missing required columns (S. No., Product Name, Input Image Urls).".toList
def msgMissingData : Str :=
  "Invalid row format: Missing data in one or more required fields.".toList
def msgInvalidUrl : Str := "Invalid input: One or more image URLs are not valid.".toList

/-- The variables the handler closes over: `products`, `isValid`, `errorMessage`. -/
structure UploadState where
  products : List Product
  isValid : Bool
  errorMessage : Str
  deriving DecidableEq

/-- `products = []`, `isValid = true`, `errorMessage = ''`. -/
def UploadState.init : UploadState := { products := [], isValid := true, errorMessage := [] }

/-- `!v` for a cell: true for `undefined` and for the empty string. -/
def isMissing (v : Option Str) : Bool :=
  match v with
  | none => true
  | some s => s.isEmpty

/-- The `headers` listener. -/
def onHeaders (headers : List Str) (st : UploadState) : UploadState :=
  if !headers.contains colSerial || !headers.contains colName || !headers.contains colUrls then
    { st with isValid := false, errorMessage := msgMissingColumns }
  else st

/-- The `data` listener.  A pushed product reads its cells from the row; a cell
that is `undefined` is recorded as the empty string (the batch is then already
flagged invalid and its products are never read again). -/
def onData (row : Row) (st : UploadState) : Except JsError UploadState :=
  if st.isValid then
    let st1 : UploadState :=
      if isMissing (row colSerial) || isMissing (row colName) || isMissing (row colUrls) then
        { st with isValid := false, errorMessage := msgMissingData }
      else st
    match isValidUrlList (row colUrls) with
    | .error e => .error e
    | .ok false => .ok { st1 with isValid := false, errorMessage := msgInvalidUrl }
    | .ok true =>
      let inputImageUrls := jsSplit ((row colUrls).getD [])
      .ok { st1 with products := st1.products ++
              [{ serialNumber := (row colSerial).getD [],
                 productName := (row colName).getD [],
                 inputImageUrls := inputImageUrls }] }
  else .ok st

/-- The `data` listener run over the rows in order; an exception ends the run. -/
def onRows : List Row → UploadState → Except JsError UploadState
  | [], st => .ok st
  | row :: rows, st =>
    match onData row st with
    | .error e => .error e
    | .ok st1 => onRows rows st1

/-- Body of an HTTP response. -/
inductive Body where
  | error : Str → Body
  | requestId : Str → Body
  deriving DecidableEq

/-- An HTTP response: status code and JSON body. -/
structure Response where
  status : Nat
  body : Body
  deriving DecidableEq

/-- The store and the queue, the two things the handlers act on. -/
structure System where
  db : Store
  queue : List Job
  deriving DecidableEq

/-- The `end` listener. -/
def onEnd (requestId : Str) (st : UploadState) (sys : System) : Response × System :=
  if !st.isValid then
    ({ status := 400, body := .error st.errorMessage }, sys)
  else
    let db1 := insertRequest sys.db requestId
    let db2 := st.products.foldl (fun db product => insertProduct db requestId product) db1
    ({ status := 200, body := .requestId requestId },
     { db := db2, queue := sys.queue ++ [{ requestId := requestId, products := st.products }] })

/-- The state of the handler when the parser turns to the rows: the `headers` listener
has run if a `headers` event was emitted; otherwise the variables are as initialised. -/
def afterHeaders (headers : Option (List Str)) : UploadState :=
  match headers with
  | none => UploadState.init
  | some headers => onHeaders headers UploadState.init

/-- The state of the handler when the parser has emitted all its events. -/
def collect (payload : Payload) : Except JsError UploadState :=
  onRows payload.rows (afterHeaders payload.headers)

/-- The upload handler on a parsed payload; `requestId` is `Date.now().toString()`. -/
def upload (requestId : Str) (payload : Payload) (sys : System) :
    Except JsError (Response × System) :=
  match collect payload with
  | .error e => .error e
  | .ok st => .ok (onEnd requestId st sys)

/-! ## The queue handler, `imageQueue.process` -/

/-- The outside world at the `n`-th call of `compressImage` of a job. -/
structure World where
  /-- `axios({ url, responseType: 'arraybuffer' })`: the body, or a rejection. -/
  axios : Nat → Str → Except JsError (List Nat)
  /-- `sharp(buffer).jpeg({ quality: 50 }).toBuffer()` -/
  sharp : Nat → List Nat → Except JsError (List Nat)
  /-- `Date.now()` -/
  now : Nat → Nat
  /-- `path.join(__dirname, 'output', ...)` of `compressed-<t>.jpg`, from `t`. -/
  outputPath : Nat → Str
  /-- `fs.writeFileSync(path, buffer)` -/
  writeFileSync : Nat → Str → List Nat → Except JsError Unit

/-- `compressImage(imageUrl)`, as the `n`-th call. -/
def compressImage (w : World) (n : Nat) (imageUrl : Str) : Except JsError Str :=
  match w.axios n imageUrl with
  | .error e => .error e
  | .ok buffer =>
    match w.sharp n buffer with
    | .error e => .error e
    | .ok compressedBuffer =>
      let compressedFilePath := w.outputPath (w.now n)
      match w.writeFileSync n compressedFilePath compressedBuffer with
      | .error e => .error e
      | .ok _ => .ok compressedFilePath

/-- The inner loop `for (let url of product.inputImageUrls)`: the value of
`outputImageUrls` when it ends, or the first exception. -/
def compressAll (w : World) : Nat → List Str → Except JsError (List Str)
  | _, [] => .ok []
  | n, url :: urls =>
    match compressImage w n url with
    | .error e => .error e
    | .ok compressedImagePath =>
      match compressAll w (n + 1) urls with
      | .error e => .error e
      | .ok rest => .ok (compressedImagePath :: rest)

/-- What a run of the queue handler leaves behind. -/
structure Run where
  /-- The store when the handler finishes. -/
  db : Store
  /-- The argument of `done`: `none` for `done(null)`. -/
  done : Option JsError
  /-- The store states the run went through, oldest first. -/
  history : List Store

/-- The outer loop `for (let product of products)` and what follows it. -/
def processProducts (w : World) (requestId : Str) : Nat → List Product → Store → Run
  | _, [], db =>
    let db1 := completeRequest db requestId
    { db := db1, done := none, history := [db1] }
  | n, product :: products, db =>
    match compressAll w n product.inputImageUrls with
    | .error e => { db := db, done := some e, history := [] }
    | .ok outputImageUrls =>
      let db1 := updateProduct db (jsJoin outputImageUrls) requestId product.productName
      let run := processProducts w requestId (n + product.inputImageUrls.length) products db1
      { run with history := db1 :: run.history }

/-- The queue handler on `job.data`. -/
def processJob (w : World) (job : Job) (db : Store) : Run :=
  let run := processProducts w job.requestId 0 job.products db
  { run with history := db :: run.history }

/-! ## Vocabulary of the specification -/

/-- The header names the three required columns. -/
def Payload.HasRequiredColumns (payload : Payload) : Prop :=
  ∃ headers, payload.headers = some headers ∧
    colSerial ∈ headers ∧ colName ∈ headers ∧ colUrls ∈ headers

/-- Every row has a cell for every column of the header: no short line. -/
def Payload.Rectangular (payload : Payload) : Prop :=
  ∀ headers, payload.headers = some headers →
    ∀ row ∈ payload.rows, ∀ col ∈ headers, (row col).isSome = true

/-- The response that rejects a submission. -/
def rejected (reason : Str) : Response := { status := 400, body := .error reason }

/-- The response that accepts a submission. -/
def accepted (requestId : Str) : Response := { status := 200, body := .requestId requestId }

/-- The row a product is persisted as at submission. -/
def pendingRow (requestId : Str) (product : Product) : ProductRow :=
  { request_id := requestId, product_name := product.productName,
    input_image_urls := jsJoin product.inputImageUrls,
    output_image_urls := none, status := .PENDING }

/-- The product a complete row stands for. -/
def IsProductOf (row : Row) (product : Product) : Prop :=
  row colSerial = some product.serialNumber ∧ row colName = some product.productName ∧
    ∃ urls, row colUrls = some urls ∧ product.inputImageUrls = jsSplit urls

/-- A row used in the examples: the three required cells and nothing else. -/
def exampleRow (serial name urls : Str) : Row := fun col =>
  if col = colSerial then some serial
  else if col = colName then some name
  else if col = colUrls then some urls
  else none

/-- A row as a short CSV line gives it: the `Input Image Urls` cell was not reached. -/
def shortRow (serial name : Str) : Row := fun col =>
  if col = colSerial then some serial
  else if col = colName then some name
  else none

/-- The header with exactly the three required columns. -/
def requiredHeader : List Str := [colSerial, colName, colUrls]

/-- The store and the queue before anything was submitted. -/
def System.empty : System := { db := { requests := [], products := [] }, queue := [] }

/-- The result of the inner loop for each product of a job in turn, the `n`-th call being
the first one of the first product (and each product before having gone through). -/
def outcomes (w : World) : Nat → List Product → List (Except JsError (List Str))
  | _, [] => []
  | n, product :: products =>
    compressAll w n product.inputImageUrls ::
      outcomes w (n + product.inputImageUrls.length) products

/-- A product row after the update that records the artifact references `refs`. -/
def completedRow (r : ProductRow) (refs : List Str) : ProductRow :=
  { r with output_image_urls := some (jsJoin refs), status := .COMPLETED }

/-- `ref` is the artifact reference a `compressImage` call returned for `url`. -/
def IsArtifactOf (w : World) (url ref : Str) : Prop :=
  ∃ n, compressImage w n url = .ok ref

/-- Number of entries of a list stored as one comma-joined string. -/
def entries (s : Str) : Nat := (jsSplit s).length

/-- Every COMPLETED product row has an output list, with as many entries as its input list. -/
def LengthsAgree (db : Store) : Prop :=
  ∀ r ∈ db.products, r.status = .COMPLETED →
    r.output_image_urls.map entries = some (entries r.input_image_urls)

instance (db : Store) : Decidable (LengthsAgree db) := by
  unfold LengthsAgree
  infer_instance

/-- A world in which every call succeeds; the `n`-th artifact is written at time
`1700000000000 + n`. -/
def exampleWorld : World :=
  { axios := fun _ _ => .ok [255, 216]
    sharp := fun _ buffer => .ok buffer
    now := fun n => 1700000000000 + n
    outputPath := fun t =>
      "/app/output/compressed-".toList ++ Nat.toDigits 10 t ++ ".jpg".toList
    writeFileSync := fun _ _ _ => .ok () }

/-- A world in which the fetch of the `k`-th call fails and every other call succeeds. -/
def failingWorld (k : Nat) : World :=
  { exampleWorld with
    axios := fun n _ => if n = k then .error (.external "ECONNREFUSED".toList) else .ok [255, 216] }


/-- The effect of the product update on one row. -/
def updateRow (output requestId productName : Str) (r : ProductRow) : ProductRow :=
  if r.request_id = requestId ∧ r.product_name = productName then
    { r with output_image_urls := some output, status := .COMPLETED }
  else r

/-- What a run of the outer loop makes of one product row. -/
def rowAfter (w : World) (requestId : Str) : Nat → List Product → ProductRow → ProductRow
  | _, [], r => r
  | n, product :: products, r =>
    match compressAll w n product.inputImageUrls with
    | .error _ => r
    | .ok refs =>
      rowAfter w requestId (n + product.inputImageUrls.length) products
        (updateRow (jsJoin refs) requestId product.productName r)

/-- The products of the example batch: `A` with one locator, `B` with two. -/
def exampleProducts : List Product :=
  [{ serialNumber := "1".toList, productName := "A".toList,
     inputImageUrls := ["http://a.com/1.jpg".toList] },
   { serialNumber := "2".toList, productName := "B".toList,
     inputImageUrls := ["http://b.com/1.jpg".toList, " b.com/2.jpg".toList] }]

/-- The payload the example batch is parsed from. -/
def examplePayload : Payload :=
  { headers := some requiredHeader,
    rows := [exampleRow "1".toList "A".toList "http://a.com/1.jpg".toList,
             exampleRow "2".toList "B".toList "http://b.com/1.jpg, b.com/2.jpg".toList] }

/-- The request identifier of the examples. -/
def exampleId : Str := "1700000000000".toList

/-- The job of the example batch. -/
def exampleJob : Job := { requestId := exampleId, products := exampleProducts }

/-- The store right after the example batch was submitted to an empty system. -/
def exampleStore : Store :=
  { requests := [{ id := exampleId, status := .PENDING }],
    products := exampleProducts.map (pendingRow exampleId) }

/-- The example world with the application installed in a directory named `app,v2`. -/
def commaWorld : World :=
  { exampleWorld with
    outputPath := fun t =>
      "/srv/app,v2/output/compressed-".toList ++ Nat.toDigits 10 t ++ ".jpg".toList }

/-- A payload in which two rows carry the product name `A`. -/
def duplicatePayload : Payload :=
  { headers := some requiredHeader,
    rows := [exampleRow "1".toList "A".toList "http://a.com/1.jpg".toList,
             exampleRow "2".toList "A".toList "http://a.com/2.jpg,http://a.com/3.jpg".toList] }

/-- The products collected from `duplicatePayload`. -/
def duplicateProducts : List Product :=
  [{ serialNumber := "1".toList, productName := "A".toList,
     inputImageUrls := ["http://a.com/1.jpg".toList] },
   { serialNumber := "2".toList, productName := "A".toList,
     inputImageUrls := ["http://a.com/2.jpg".toList, "http://a.com/3.jpg".toList] }]

/-! ### What `isValidUrl` accepts, part by part -/

/-- An empty scheme, or `http://` or `https://` in any mix of cases. -/
def IsScheme (s : Str) : Prop :=
  s = [] ∨ s.map Char.toLower = "http://".toList ∨ s.map Char.toLower = "https://".toList

/-- A label: letters, digits and hyphens, beginning and ending with a letter or digit. -/
def IsLabel (l : Str) : Prop :=
  (∀ c ∈ l, isAlnumHyphen c = true) ∧ (∃ c, l.head? = some c ∧ isAlnum c = true) ∧
    ∃ c, l.getLast? = some c ∧ isAlnum c = true

/-- A domain host: one or more labels, each followed by a dot or by nothing, then two or
more letters. -/
def IsDomain (h : Str) : Prop :=
  ∃ (pieces : List Str) (tld : Str), pieces ≠ [] ∧
    (∀ u ∈ pieces, ∃ l, IsLabel l ∧ (u = l ∨ u = l ++ ['.'])) ∧
    2 ≤ tld.length ∧ (∀ c ∈ tld, isLetter c = true) ∧ h = pieces.flatten ++ tld

/-- A group of one to three digits. -/
def IsOctet (o : Str) : Prop := 1 ≤ o.length ∧ o.length ≤ 3 ∧ ∀ c ∈ o, isDigit c = true

/-- Four groups of one to three digits, separated by dots. -/
def IsDottedQuad (h : Str) : Prop :=
  ∃ a b c d, IsOctet a ∧ IsOctet b ∧ IsOctet c ∧ IsOctet d ∧
    h = a ++ '.' :: (b ++ '.' :: (c ++ '.' :: d))

/-- Nothing, or a colon and one or more digits. -/
def IsPort (p : Str) : Prop :=
  p = [] ∨ ∃ ds, ds ≠ [] ∧ (∀ c ∈ ds, isDigit c = true) ∧ p = ':' :: ds

/-- Any number of segments, each a slash followed by path characters. -/
def IsPath (p : Str) : Prop :=
  ∃ segments : List Str,
    (∀ u ∈ segments, ∃ body, (∀ c ∈ body, isPathChar c = true) ∧ u = '/' :: body) ∧
    p = segments.flatten

/-- Nothing, or a question mark followed by query characters. -/
def IsQuery (q : Str) : Prop :=
  q = [] ∨ ∃ body, (∀ c ∈ body, isQueryChar c = true) ∧ q = '?' :: body

/-- Nothing, or a hash sign followed by fragment characters. -/
def IsFragment (f : Str) : Prop :=
  f = [] ∨ ∃ body, (∀ c ∈ body, isFragmentChar c = true) ∧ f = '#' :: body

/-- The strings `isValidUrl` accepts, described part by part. -/
def IsUrl (s : Str) : Prop :=
  ∃ scheme host port path query fragment,
    IsScheme scheme ∧ (IsDomain host ∨ IsDottedQuad host) ∧ IsPort port ∧ IsPath path ∧
    IsQuery query ∧ IsFragment fragment ∧
    s = scheme ++ (host ++ (port ++ (path ++ (query ++ fragment))))

/-! ### The acceptance contract as C7 words it -/

open Regex in
/-- Dot-separated labels of which the last, the top-level label, is two or more letters. -/
def specDomainPattern : Regex :=
  seq (star (seq labelPattern (chr '.')))
    (seq (cls isLetter) (seq (cls isLetter) (star (cls isLetter))))

open Regex in
/-- Optional scheme, then a host (dot-separated labels ending in a top-level label of two
or more letters, or a dotted quad), then optional port, path, query and fragment. -/
def specUrlPattern : Regex :=
  seq protocolPattern (seq (alt specDomainPattern ipPattern)
    (seq portPattern (seq pathPattern (seq queryPattern fragmentPattern))))

/-- Whether a string meets the acceptance contract as worded. -/
def specIsValidUrl (url : Str) : Bool := Regex.test specUrlPattern url

/-! # Properties -/

/-! ## Upload handler -/

theorem onRows_invalid (rows : List Row) (st : UploadState) (h : st.isValid = false) :
    onRows rows st = .ok st := by
  induction rows with
  | nil => rfl
  | cons row rows ih => simp [onRows, onData, h, ih]

theorem onHeaders_missing (headers : List Str)
    (h : colSerial ∉ headers ∨ colName ∉ headers ∨ colUrls ∉ headers) :
    onHeaders headers UploadState.init =
      { products := [], isValid := false, errorMessage := msgMissingColumns } := by
  have : (!headers.contains colSerial || !headers.contains colName ||
      !headers.contains colUrls) = true := by
    rcases h with h | h | h <;> simp [h]
  unfold onHeaders
  rw [if_pos this]
  rfl

theorem onHeaders_present (headers : List Str)
    (h : colSerial ∈ headers ∧ colName ∈ headers ∧ colUrls ∈ headers) :
    onHeaders headers UploadState.init = UploadState.init := by
  simp [onHeaders, h.1, h.2.1, h.2.2]

theorem afterHeaders_products (headers : Option (List Str)) :
    (afterHeaders headers).products = [] := by
  cases headers with
  | none => rfl
  | some headers =>
    simp only [afterHeaders]
    unfold onHeaders
    split <;> rfl

/-- Where the parser emits a `headers` event: a header list that lacks a required column
is rejected with status 400 and the missing-columns reason whatever the rows hold; no row
is validated or collected (the state after all events still has no product and still
carries the header reason) and the store and the queue are left as they were. -/
theorem upload_missing_column (requestId : Str) (payload : Payload) (sys : System)
    (headers : List Str) (hh : payload.headers = some headers)
    (h : colSerial ∉ headers ∨ colName ∉ headers ∨ colUrls ∉ headers) :
    collect payload =
        .ok { products := [], isValid := false, errorMessage := msgMissingColumns } ∧
      upload requestId payload sys = .ok (rejected msgMissingColumns, sys) := by
  have hc : collect payload =
      .ok { products := [], isValid := false, errorMessage := msgMissingColumns } := by
    unfold collect
    rw [hh]
    simp only [afterHeaders]
    rw [onHeaders_missing _ h]
    exact onRows_invalid _ _ rfl
  refine ⟨hc, ?_⟩
  simp [upload, hc, onEnd, rejected]


/-- The product the `data` listener pushes for a row. -/
theorem onData_valid (row : Row) (st : UploadState) (urls : Str)
    (hv : st.isValid = true) (hu : row colUrls = some urls) :
    onData row st = .ok
      (if (jsSplit urls).all (fun url => isValidUrl (jsTrim url)) = true then
        { products := st.products ++
            [{ serialNumber := (row colSerial).getD [], productName := (row colName).getD [],
               inputImageUrls := jsSplit urls }],
          isValid := !(isMissing (row colSerial) || isMissing (row colName) ||
            isMissing (some urls)),
          errorMessage :=
            if isMissing (row colSerial) || isMissing (row colName) || isMissing (some urls)
            then msgMissingData else st.errorMessage }
      else { products := st.products, isValid := false, errorMessage := msgInvalidUrl }) := by
  unfold onData
  simp only [hv, if_true, hu, isValidUrlList]
  cases hb : ((jsSplit urls).all fun url => isValidUrl (jsTrim url))
  · simp only [Bool.false_eq_true, if_false]
    split <;> rfl
  · simp only [if_true, Option.getD_some]
    cases hm : (isMissing (row colSerial) || isMissing (row colName) || isMissing (some urls))
    · simp only [Bool.false_eq_true, if_false, Bool.not_false]
      rw [← hv]
    · simp only [if_true, Bool.not_true]

theorem onData_some (row : Row) (st : UploadState) (h : (row colUrls).isSome = true) :
    ∃ st1, onData row st = .ok st1 ∧ (st.isValid = false → st1 = st) ∧
      (st1.isValid = true → st.isValid = true ∧
        isMissing (row colSerial) = false ∧ isMissing (row colName) = false ∧
        isMissing (row colUrls) = false ∧
        st1.products.length = st.products.length + 1) := by
  obtain ⟨urls, hu⟩ := Option.isSome_iff_exists.mp h
  by_cases hv : st.isValid = true
  · refine ⟨_, onData_valid row st urls hv hu, by simp [hv], ?_⟩
    split
    · intro h1
      simp only [Bool.not_eq_true', Bool.or_eq_false_iff] at h1
      simp [hv, h1.1.1, h1.1.2, hu, h1.2]
    · simp
  · simp only [Bool.not_eq_true] at hv
    exact ⟨st, by simp [onData, hv], fun _ => rfl, by simp [hv]⟩

theorem onRows_some (rows : List Row) (st : UploadState)
    (h : ∀ row ∈ rows, (row colUrls).isSome = true) :
    ∃ st1, onRows rows st = .ok st1 ∧ (st.isValid = false → st1 = st) ∧
      (st1.isValid = true → st.isValid = true ∧
        (∀ row ∈ rows, isMissing (row colSerial) = false ∧ isMissing (row colName) = false ∧
          isMissing (row colUrls) = false) ∧
        st1.products.length = st.products.length + rows.length) := by
  induction rows generalizing st with
  | nil => exact ⟨st, rfl, fun _ => rfl, fun hv => ⟨hv, by simp, by simp⟩⟩
  | cons row rows ih =>
    obtain ⟨st1, h1, h1i, h1v⟩ := onData_some row st (h row (by simp))
    obtain ⟨st2, h2, h2i, h2v⟩ := ih st1 (fun r hr => h r (by simp [hr]))
    refine ⟨st2, by simp [onRows, h1, h2], ?_, ?_⟩
    · intro hv
      have := h1i hv
      subst this
      exact h2i hv
    · intro hv
      obtain ⟨hv1, hrows, hlen⟩ := h2v hv
      obtain ⟨hv0, ha, hb, hc, hlen1⟩ := h1v hv1
      refine ⟨hv0, ?_, ?_⟩
      · intro r hr
        rcases List.mem_cons.mp hr with rfl | hr
        · exact ⟨ha, hb, hc⟩
        · exact hrows r hr
      · rw [hlen, hlen1, List.length_cons]
        omega

theorem onRows_append (xs ys : List Row) (st st1 : UploadState)
    (h : onRows xs st = .ok st1) : onRows (xs ++ ys) st = onRows ys st1 := by
  induction xs generalizing st with
  | nil =>
    simp only [onRows, Except.ok.injEq] at h
    subst h
    rfl
  | cons x xs ih =>
    simp only [onRows, List.cons_append] at h ⊢
    cases hx : onData x st with
    | error e => simp [hx] at h
    | ok s => 
      simp only [hx] at h ⊢
      exact ih s h

theorem foldl_insertProduct (requestId : Str) (products : List Product) (db : Store) :
    products.foldl (fun db product => insertProduct db requestId product) db =
      { requests := db.requests,
        products := db.products ++ products.map (pendingRow requestId) } := by
  induction products generalizing db with
  | nil => simp
  | cons p ps ih =>
    rw [List.foldl_cons, ih]
    simp [insertProduct, pendingRow]

theorem onEnd_valid (requestId : Str) (st : UploadState) (sys : System)
    (h : st.isValid = true) :
    onEnd requestId st sys = (accepted requestId,
      { db := { requests := sys.db.requests ++ [{ id := requestId, status := .PENDING }],
                products := sys.db.products ++ st.products.map (pendingRow requestId) },
        queue := sys.queue ++ [{ requestId := requestId, products := st.products }] }) := by
  simp [onEnd, h, foldl_insertProduct, insertRequest, accepted]

theorem onEnd_invalid (requestId : Str) (st : UploadState) (sys : System)
    (h : st.isValid = false) :
    onEnd requestId st sys = (rejected st.errorMessage, sys) := by
  simp [onEnd, h, rejected]

/-- Where no row is a short line: when the header has the three required columns and every
row has its cells, a row with an empty string in a required column makes the handler answer
400, whatever the other rows and cells hold, and the store and the queue are left as they
were. -/
theorem upload_empty_field (requestId : Str) (payload : Payload) (sys : System)
    (hcols : payload.HasRequiredColumns) (hrect : payload.Rectangular)
    (hempty : ∃ row ∈ payload.rows,
      row colSerial = some [] ∨ row colName = some [] ∨ row colUrls = some []) :
    ∃ reason, upload requestId payload sys = .ok (rejected reason, sys) := by
  obtain ⟨headers, hh, -, -, hurls⟩ := hcols
  have hsome : ∀ row ∈ payload.rows, (row colUrls).isSome = true :=
    fun row hr => hrect headers hh row hr colUrls hurls
  obtain ⟨st, hst, -, hv⟩ := onRows_some payload.rows (afterHeaders payload.headers) hsome
  have hinv : st.isValid = false := by
    cases hb : st.isValid with
    | false => rfl
    | true =>
      obtain ⟨row, hr, hrow⟩ := hempty
      obtain ⟨ha, hb, hc⟩ := (hv hb).2.1 row hr
      rcases hrow with h | h | h
      · simp [h, isMissing] at ha
      · simp [h, isMissing] at hb
      · simp [h, isMissing] at hc
  refine ⟨st.errorMessage, ?_⟩
  simp only [upload, collect, hst]
  rw [onEnd_invalid _ _ _ hinv]

/-- The same at a batch whose second row has an empty product name. -/
theorem upload_empty_field_witness :
    ∃ reason, upload "1700000000000".toList
      { headers := some requiredHeader,
        rows := [exampleRow "1".toList "A".toList "a.com".toList,
                 exampleRow "2".toList [] "b.com".toList] } System.empty =
      .ok (rejected reason, System.empty) :=
  upload_empty_field _ _ _ ⟨requiredHeader, rfl, by decide, by decide, by decide⟩
    (by
      intro headers hh row hr col hc
      simp only [Option.some.injEq] at hh
      subst hh
      simp only [List.mem_cons, List.mem_singleton, List.not_mem_nil, or_false, requiredHeader] at hr hc
      rcases hr with rfl | rfl <;> rcases hc with rfl | rfl | rfl <;> decide)
    ⟨exampleRow "2".toList [] "b.com".toList, by simp, Or.inr (Or.inl (by decide))⟩

theorem isMissing_some (s : Str) (h : s ≠ []) : isMissing (some s) = false := by
  cases s with
  | nil => exact absurd rfl h
  | cons c cs => rfl

theorem all_eq_false_iff (urls : Str) :
    ((jsSplit urls).all (fun url => isValidUrl (jsTrim url)) = true) ↔
      ¬ ∃ u ∈ jsSplit urls, isValidUrl (jsTrim u) = false := by
  simp [List.all_eq_true]

/-- C6: in a payload with the three required columns, take a row whose three required cells
are non-empty and which is reached while the batch is still valid.  The `data` listener
flags the batch with the invalid-URL reason exactly when some comma-separated element of
the locator cell fails `isValidUrl` after trimming (otherwise it keeps the batch valid and
collects the row); when it does, the submission is answered 400 with that reason whatever
rows follow; a list with the element `not a url` is such a case. -/
theorem invalid_url_rejected (requestId : Str) (headers : List Str) (before after : List Row)
    (row : Row) (st : UploadState) (sys : System) (serial name urls : Str)
    (_hcols : colSerial ∈ headers ∧ colName ∈ headers ∧ colUrls ∈ headers)
    (hbefore : onRows before (onHeaders headers UploadState.init) = .ok st)
    (hvalid : st.isValid = true)
    (hserial : row colSerial = some serial) (hs : serial ≠ [])
    (hname : row colName = some name) (hn : name ≠ [])
    (hurls : row colUrls = some urls) (hu : urls ≠ []) :
    (∃ st1, onData row st = .ok st1 ∧
      ((st1.isValid = false ∧ st1.errorMessage = msgInvalidUrl) ↔
        ∃ u ∈ jsSplit urls, isValidUrl (jsTrim u) = false) ∧
      (st1.isValid = true ↔ ∀ u ∈ jsSplit urls, isValidUrl (jsTrim u) = true)) ∧
    ((∃ u ∈ jsSplit urls, isValidUrl (jsTrim u) = false) →
      upload requestId { headers := some headers, rows := before ++ row :: after } sys =
        .ok (rejected msgInvalidUrl, sys)) ∧
    ("not a url".toList ∈ jsSplit urls →
      upload requestId { headers := some headers, rows := before ++ row :: after } sys =
        .ok (rejected msgInvalidUrl, sys)) := by
  have hd := onData_valid row st urls hvalid hurls
  have hmiss : (isMissing (row colSerial) || isMissing (row colName) ||
      isMissing (some urls)) = false := by
    rw [hserial, hname, isMissing_some _ hs, isMissing_some _ hn, isMissing_some _ hu]
    rfl
  have hrej : (∃ u ∈ jsSplit urls, isValidUrl (jsTrim u) = false) →
      upload requestId { headers := some headers, rows := before ++ row :: after } sys =
        .ok (rejected msgInvalidUrl, sys) := by
    intro hbad
    have hall : ¬ ((jsSplit urls).all (fun url => isValidUrl (jsTrim url)) = true) :=
      fun h => (all_eq_false_iff urls).mp h hbad
    rw [if_neg hall] at hd
    simp only [upload, collect, afterHeaders]
    rw [onRows_append before (row :: after) _ st hbefore]
    simp only [onRows, hd]
    rw [onRows_invalid after _ rfl]
    rfl
  refine ⟨?_, hrej, ?_⟩
  · by_cases hall : (jsSplit urls).all (fun url => isValidUrl (jsTrim url)) = true
    · rw [if_pos hall, hmiss] at hd
      refine ⟨_, hd, ?_, ?_⟩
      · simp only [Bool.not_false, Bool.true_eq_false, false_and, false_iff]
        exact (all_eq_false_iff urls).mp hall
      · simpa [List.all_eq_true] using hall
    · rw [if_neg hall] at hd
      refine ⟨_, hd, ?_, ?_⟩
      · simp only [true_and, true_iff]
        by_contra hcon
        exact hall ((all_eq_false_iff urls).mpr hcon)
      · simp only [Bool.false_eq_true, false_iff]
        intro hcon
        exact hall (by simpa [List.all_eq_true] using hcon)
  · intro hmem
    exact hrej ⟨_, hmem, by decide⟩

/-- C6, at a batch whose second row lists `http://a.com/x.jpg` and `not a url`. -/
theorem invalid_url_rejected_witness :
    upload "1700000000000".toList
      { headers := some requiredHeader,
        rows := [exampleRow "1".toList "A".toList "a.com".toList] ++
          exampleRow "2".toList "B".toList "http://a.com/x.jpg,not a url".toList ::
          [exampleRow "3".toList [] []] } System.empty =
      .ok (rejected msgInvalidUrl, System.empty) :=
  (invalid_url_rejected "1700000000000".toList requiredHeader
    [exampleRow "1".toList "A".toList "a.com".toList] [exampleRow "3".toList [] []]
    (exampleRow "2".toList "B".toList "http://a.com/x.jpg,not a url".toList)
    { products := [{ serialNumber := "1".toList, productName := "A".toList,
                     inputImageUrls := ["a.com".toList] }],
      isValid := true, errorMessage := [] }
    System.empty "2".toList "B".toList "http://a.com/x.jpg,not a url".toList
    ⟨by decide, by decide, by decide⟩ (by decide) rfl (by decide) (by decide) (by decide)
    (by decide) (by decide) (by decide)).2.2 (by decide)

theorem onRows_collect (rows : List Row) (st : UploadState) (hv : st.isValid = true)
    (hrows : ∀ row ∈ rows, ∃ serial name urls,
      row colSerial = some serial ∧ serial ≠ [] ∧ row colName = some name ∧ name ≠ [] ∧
      row colUrls = some urls ∧ urls ≠ [] ∧ isValidUrlList (some urls) = .ok true) :
    ∃ products, List.Forall₂ IsProductOf rows products ∧
      onRows rows st = .ok { st with products := st.products ++ products } := by
  induction rows generalizing st with
  | nil => exact ⟨[], List.Forall₂.nil, by simp [onRows]⟩
  | cons row rows ih =>
    obtain ⟨serial, name, urls, h1, h1n, h2, h2n, h3, h3n, hok⟩ := hrows row (by simp)
    have hall : (jsSplit urls).all (fun url => isValidUrl (jsTrim url)) = true := by
      simpa [isValidUrlList] using hok
    have hd : onData row st = .ok
        { products := st.products ++ [⟨serial, name, jsSplit urls⟩], isValid := true,
          errorMessage := st.errorMessage } := by
      rw [onData_valid row st urls hv h3, if_pos hall, h1, h2, isMissing_some _ h1n,
        isMissing_some _ h2n, isMissing_some _ h3n]
      rfl
    obtain ⟨products, hp, hrun⟩ :=
      ih { products := st.products ++ [⟨serial, name, jsSplit urls⟩], isValid := true,
           errorMessage := st.errorMessage } rfl (fun r hr => hrows r (by simp [hr]))
    refine ⟨⟨serial, name, jsSplit urls⟩ :: products,
      List.Forall₂.cons ⟨h1, h2, urls, h3, rfl⟩ hp, ?_⟩
    simp only [onRows, hd, hrun, List.append_assoc, List.singleton_append, hv]

/-- C8: when the header has the three required columns and every row has non-empty
required cells and a locator list that `isValidUrlList` accepts, the collected products
are the rows in input order, one per row, each with the row's `S. No.` as `serialNumber`,
its `Product Name` as `productName` and its `Input Image Urls` cell split on the comma
(pieces untrimmed) as `inputImageUrls`; the rows inserted into `products` are built from
this sequence, in order, and the job put on the queue carries it. -/
theorem collected_in_order (requestId : Str) (payload : Payload) (sys : System)
    (hcols : payload.HasRequiredColumns)
    (hrows : ∀ row ∈ payload.rows, ∃ serial name urls,
      row colSerial = some serial ∧ serial ≠ [] ∧ row colName = some name ∧ name ≠ [] ∧
      row colUrls = some urls ∧ urls ≠ [] ∧ isValidUrlList (some urls) = .ok true) :
    ∃ products, List.Forall₂ IsProductOf payload.rows products ∧
      collect payload = .ok { products := products, isValid := true, errorMessage := [] } ∧
      upload requestId payload sys = .ok (accepted requestId,
        { db := { requests := sys.db.requests ++ [{ id := requestId, status := .PENDING }],
                  products := sys.db.products ++ products.map (pendingRow requestId) },
          queue := sys.queue ++ [{ requestId := requestId, products := products }] }) := by
  obtain ⟨products, hp, hrun⟩ := onRows_collect payload.rows UploadState.init rfl hrows
  have hc : collect payload =
      .ok { products := products, isValid := true, errorMessage := [] } := by
    obtain ⟨headers, hh, hcols⟩ := hcols
    unfold collect
    rw [hh]
    simp only [afterHeaders]
    rw [onHeaders_present _ hcols, hrun]
    rfl
  refine ⟨products, hp, hc, ?_⟩
  simp only [upload, hc]
  rw [onEnd_valid _ _ _ rfl]

/-- C8, at a batch of two rows; the second locator list keeps the blank after its comma. -/
theorem collected_in_order_witness :
    ∃ products,
      List.Forall₂ IsProductOf
        [exampleRow "1".toList "A".toList "a.com".toList,
         exampleRow "2".toList "B".toList "b.com, c.com".toList] products ∧
      collect { headers := some requiredHeader,
                rows := [exampleRow "1".toList "A".toList "a.com".toList,
                         exampleRow "2".toList "B".toList "b.com, c.com".toList] } =
        .ok { products := products, isValid := true, errorMessage := [] } ∧
      upload "1700000000000".toList
          { headers := some requiredHeader,
            rows := [exampleRow "1".toList "A".toList "a.com".toList,
                     exampleRow "2".toList "B".toList "b.com, c.com".toList] } System.empty =
        .ok (accepted "1700000000000".toList,
          { db := { requests := System.empty.db.requests ++
                      [{ id := "1700000000000".toList, status := .PENDING }],
                    products := System.empty.db.products ++
                      products.map (pendingRow "1700000000000".toList) },
            queue := System.empty.queue ++
              [{ requestId := "1700000000000".toList, products := products }] }) :=
  collected_in_order "1700000000000".toList
    { headers := some requiredHeader,
      rows := [exampleRow "1".toList "A".toList "a.com".toList,
               exampleRow "2".toList "B".toList "b.com, c.com".toList] } System.empty
    ⟨requiredHeader, rfl, by decide, by decide, by decide⟩
    (by
      intro row hr
      simp only [List.mem_cons, List.mem_singleton, List.not_mem_nil, or_false] at hr
      rcases hr with rfl | rfl
      · exact ⟨"1".toList, "A".toList, "a.com".toList, by decide, by decide, by decide,
          by decide, by decide, by decide, by decide⟩
      · exact ⟨"2".toList, "B".toList, "b.com, c.com".toList, by decide, by decide,
          by decide, by decide, by decide, by decide, by decide⟩)

theorem onData_accept (row : Row) (st st1 : UploadState) (h : onData row st = .ok st1)
    (hv : st1.isValid = true) :
    st.isValid = true ∧ st1.products.length = st.products.length + 1 := by
  cases hu : row colUrls with
  | none =>
    cases hs : st.isValid with
    | false =>
      simp only [onData, hs, Bool.false_eq_true, if_false, Except.ok.injEq] at h
      rw [← h, hs] at hv
      exact absurd hv (by decide)
    | true => simp [onData, hs, hu, isValidUrlList] at h
  | some urls =>
    obtain ⟨st2, h2, -, h2v⟩ := onData_some row st (by simp [hu])
    rw [h2, Except.ok.injEq] at h
    subst h
    exact ⟨(h2v hv).1, (h2v hv).2.2.2.2⟩

theorem onRows_accept (rows : List Row) (st st1 : UploadState) (h : onRows rows st = .ok st1)
    (hv : st1.isValid = true) :
    st.isValid = true ∧ st1.products.length = st.products.length + rows.length := by
  induction rows generalizing st with
  | nil =>
    simp only [onRows, Except.ok.injEq] at h
    subst h
    exact ⟨hv, rfl⟩
  | cons row rows ih =>
    simp only [onRows] at h
    cases hd : onData row st with
    | error e => simp [hd] at h
    | ok s =>
      simp only [hd] at h
      obtain ⟨hs, hlen⟩ := ih s h
      obtain ⟨h0, hlen0⟩ := onData_accept row st s hd hs
      exact ⟨h0, by rw [hlen, hlen0, List.length_cons]; omega⟩

theorem onHeaders_products (headers : List Str) :
    (onHeaders headers UploadState.init).products = [] := by
  unfold onHeaders
  split <;> rfl

/-- C9 (as stated, refuted): a payload that is only the header line is accepted; the
handler inserts the Request row, inserts no Product row, and enqueues a job with no
product. -/
theorem header_only_accepted :
    upload "1700000000000".toList { headers := some requiredHeader, rows := [] } System.empty =
      .ok (accepted "1700000000000".toList,
        { db := { requests := [{ id := "1700000000000".toList, status := .PENDING }],
                  products := [] },
          queue := [{ requestId := "1700000000000".toList, products := [] }] }) := by
  decide

/-- C9 (amended): an accepted submission inserts one Request row and, for that
`requestId`, exactly one PENDING Product row per data row of the payload; the Request owns
at least one Product whenever the payload has at least one data row. -/
theorem accepted_inserts_row_per_line (requestId : Str) (payload : Payload) (sys sys1 : System)
    (response : Response)
    (h : upload requestId payload sys = .ok (response, sys1)) (hacc : response.status = 200) :
    sys1.db.requests = sys.db.requests ++ [{ id := requestId, status := .PENDING }] ∧
    (∃ inserted, sys1.db.products = sys.db.products ++ inserted ∧
      inserted.length = payload.rows.length ∧
      ∀ r ∈ inserted, r.request_id = requestId ∧ r.status = .PENDING) ∧
    (payload.rows ≠ [] → ∃ r ∈ sys1.db.products, r.request_id = requestId) := by
  unfold upload at h
  cases hc : collect payload with
  | error e => simp [hc] at h
  | ok st =>
    simp only [hc, Except.ok.injEq] at h
    cases hv : st.isValid with
    | false =>
      rw [onEnd_invalid _ _ _ hv, Prod.mk.injEq] at h
      rw [← h.1] at hacc
      simp [rejected] at hacc
    | true =>
      rw [onEnd_valid _ _ _ hv, Prod.mk.injEq] at h
      obtain ⟨-, hsys⟩ := h
      subst hsys
      obtain ⟨-, hlen⟩ := onRows_accept payload.rows _ st hc hv
      rw [afterHeaders_products, List.length_nil, Nat.zero_add] at hlen
      have hins : ∀ r ∈ st.products.map (pendingRow requestId),
          r.request_id = requestId ∧ r.status = .PENDING := by
        intro r hr
        obtain ⟨p, -, rfl⟩ := List.mem_map.mp hr
        exact ⟨rfl, rfl⟩
      refine ⟨rfl, ⟨_, rfl, by rw [List.length_map, hlen], hins⟩, ?_⟩
      intro hne
      cases hp : st.products with
      | nil =>
        rw [hp, List.length_nil] at hlen
        exact absurd (List.length_eq_zero.mp hlen.symm) hne
      | cons p ps =>
        exact ⟨pendingRow requestId p, by simp [hp], rfl⟩

/-- C9 (amended), at a batch of one row. -/
theorem accepted_inserts_row_per_line_witness :
    ({ requests := [{ id := "1700000000000".toList, status := .PENDING }],
       products := [pendingRow "1700000000000".toList ⟨"1".toList, "A".toList, ["a.com".toList]⟩] } : Store).requests =
        System.empty.db.requests ++ [{ id := "1700000000000".toList, status := .PENDING }] ∧
    (∃ inserted,
      ({ requests := [{ id := "1700000000000".toList, status := .PENDING }],
         products := [pendingRow "1700000000000".toList ⟨"1".toList, "A".toList, ["a.com".toList]⟩] } : Store).products =
        System.empty.db.products ++ inserted ∧
      inserted.length = [exampleRow "1".toList "A".toList "a.com".toList].length ∧
      ∀ r ∈ inserted, r.request_id = "1700000000000".toList ∧ r.status = .PENDING) ∧
    ([exampleRow "1".toList "A".toList "a.com".toList] ≠ [] →
      ∃ r ∈ ({ requests := [{ id := "1700000000000".toList, status := .PENDING }],
               products := [pendingRow "1700000000000".toList ⟨"1".toList, "A".toList, ["a.com".toList]⟩] } : Store).products,
        r.request_id = "1700000000000".toList) :=
  accepted_inserts_row_per_line "1700000000000".toList
    { headers := some requiredHeader, rows := [exampleRow "1".toList "A".toList "a.com".toList] }
    System.empty
    { db := { requests := [{ id := "1700000000000".toList, status := .PENDING }],
              products := [pendingRow "1700000000000".toList ⟨"1".toList, "A".toList, ["a.com".toList]⟩] },
      queue := [{ requestId := "1700000000000".toList,
                  products := [⟨"1".toList, "A".toList, ["a.com".toList]⟩] }] }
    (accepted "1700000000000".toList) (by decide) (by decide)

/-- C10 (the code at the failing input): on a valid batch, a row without an
`Input Image Urls` cell makes the `data` listener throw a `TypeError`. -/
theorem onData_short_row_throws :
    onData (shortRow "1".toList "A".toList) UploadState.init = .error .typeError := by
  decide

/-! ## Queue handler -/

theorem compressAll_forall₂ (w : World) (n : Nat) (urls refs : List Str)
    (h : compressAll w n urls = .ok refs) : List.Forall₂ (IsArtifactOf w) urls refs := by
  induction urls generalizing n refs with
  | nil =>
    simp only [compressAll, Except.ok.injEq] at h
    subst h
    exact List.Forall₂.nil
  | cons url urls ih =>
    simp only [compressAll] at h
    cases h1 : compressImage w n url with
    | error e => simp [h1] at h
    | ok ref =>
      cases h2 : compressAll w (n + 1) urls with
      | error e => simp [h1, h2] at h
      | ok rest =>
        simp only [h1, h2, Except.ok.injEq] at h
        subst h
        exact List.Forall₂.cons ⟨n, h1⟩ (ih _ _ h2)

theorem processProducts_products (w : World) (requestId : Str) (n : Nat)
    (products : List Product) (db : Store) :
    (processProducts w requestId n products db).db.products =
      db.products.map (rowAfter w requestId n products) := by
  induction products generalizing n db with
  | nil => simp [processProducts, completeRequest, rowAfter]
  | cons p ps ih =>
    simp only [processProducts]
    cases h : compressAll w n p.inputImageUrls with
    | error e => simp [rowAfter, h]
    | ok refs =>
      simp only [ih, updateProduct, List.map_map]
      apply List.map_congr_left
      intro r _
      simp [rowAfter, h, updateRow]

theorem rowAfter_other (w : World) (requestId : Str) (n : Nat) (products : List Product)
    (r : ProductRow)
    (h : r.request_id ≠ requestId ∨ ∀ p ∈ products, p.productName ≠ r.product_name) :
    rowAfter w requestId n products r = r := by
  induction products generalizing n with
  | nil => rfl
  | cons p ps ih =>
    simp only [rowAfter]
    cases hc : compressAll w n p.inputImageUrls with
    | error e => rfl
    | ok refs =>
      have hu : updateRow (jsJoin refs) requestId p.productName r = r := by
        unfold updateRow
        rw [if_neg]
        rintro ⟨h1, h2⟩
        rcases h with h | h
        · exact h h1
        · exact h p (by simp) h2.symm
      simp only [hu]
      apply ih
      rcases h with h | h
      · exact Or.inl h
      · exact Or.inr (fun q hq => h q (by simp [hq]))

/-- A row of a product that went through, all products before it having gone through. -/
theorem rowAfter_completed (w : World) (requestId : Str) (n : Nat) (products : List Product)
    (r : ProductRow) (i : Nat) (p : Product) (refs : List Str)
    (hnodup : (products.map (fun p => p.productName)).Nodup)
    (hbefore : ∀ i1, i1 < i → ∃ refs1, (outcomes w n products)[i1]? = some (.ok refs1))
    (hp : products[i]? = some p) (hrefs : (outcomes w n products)[i]? = some (.ok refs))
    (hid : r.request_id = requestId) (hname : r.product_name = p.productName) :
    rowAfter w requestId n products r = completedRow r refs := by
  induction products generalizing n i r with
  | nil => simp at hp
  | cons p0 ps ih =>
    simp only [List.map_cons, List.nodup_cons, List.mem_map, not_exists, not_and] at hnodup
    cases i with
    | zero =>
      simp only [List.getElem?_cons_zero, Option.some.injEq] at hp
      subst hp
      simp only [outcomes, List.getElem?_cons_zero, Option.some.injEq] at hrefs
      simp only [rowAfter, hrefs]
      have hu : updateRow (jsJoin refs) requestId p0.productName r = completedRow r refs := by
        simp [updateRow, hid, hname, completedRow]
      rw [hu]
      apply rowAfter_other
      right
      intro q hq hqn
      exact hnodup.1 q hq (by rw [hqn]; exact hname)
    | succ i =>
      simp only [List.getElem?_cons_succ] at hp
      obtain ⟨refs0, h0⟩ := hbefore 0 (Nat.succ_pos i)
      simp only [outcomes, List.getElem?_cons_zero, Option.some.injEq] at h0
      simp only [outcomes, List.getElem?_cons_succ] at hrefs
      simp only [rowAfter, h0]
      have hne : p0.productName ≠ r.product_name := by
        intro hcon
        exact hnodup.1 p (List.getElem?_mem hp) (by rw [← hname, hcon])
      have hu : updateRow (jsJoin refs0) requestId p0.productName r = r := by
        unfold updateRow
        rw [if_neg]
        rintro ⟨-, h2⟩
        exact hne h2.symm
      rw [hu]
      apply ih _ r i hnodup.2 _ hp hrefs hid hname
      intro i1 hi1
      have := hbefore (i1 + 1) (Nat.succ_lt_succ hi1)
      simpa only [outcomes, List.getElem?_cons_succ] using this

/-- A row of the product at which the job failed, or of a later one. -/
theorem rowAfter_untouched (w : World) (requestId : Str) (n : Nat) (products : List Product)
    (r : ProductRow) (k i : Nat) (p : Product) (e : JsError)
    (hnodup : (products.map (fun p => p.productName)).Nodup)
    (hbefore : ∀ i1, i1 < k → ∃ refs1, (outcomes w n products)[i1]? = some (.ok refs1))
    (hfail : (outcomes w n products)[k]? = some (.error e))
    (hp : products[i]? = some p) (hki : k ≤ i) (hname : r.product_name = p.productName) :
    rowAfter w requestId n products r = r := by
  induction products generalizing n i k r with
  | nil => simp at hp
  | cons p0 ps ih =>
    simp only [List.map_cons, List.nodup_cons, List.mem_map, not_exists, not_and] at hnodup
    cases k with
    | zero =>
      simp only [outcomes, List.getElem?_cons_zero, Option.some.injEq] at hfail
      simp only [rowAfter, hfail]
    | succ k =>
      obtain ⟨refs0, h0⟩ := hbefore 0 (Nat.succ_pos k)
      simp only [outcomes, List.getElem?_cons_zero, Option.some.injEq] at h0
      simp only [outcomes, List.getElem?_cons_succ] at hfail
      cases i with
      | zero => exact absurd hki (by omega)
      | succ i =>
        simp only [List.getElem?_cons_succ] at hp
        simp only [rowAfter, h0]
        have hne : p0.productName ≠ r.product_name := by
          intro hcon
          exact hnodup.1 p (List.getElem?_mem hp) (by rw [← hname, hcon])
        have hu : updateRow (jsJoin refs0) requestId p0.productName r = r := by
          unfold updateRow
          rw [if_neg]
          rintro ⟨-, h2⟩
          exact hne h2.symm
        rw [hu]
        apply ih _ r k i hnodup.2 _ hfail hp (Nat.le_of_succ_le_succ hki) hname
        intro i1 hi1
        have := hbefore (i1 + 1) (Nat.succ_lt_succ hi1)
        simpa only [outcomes, List.getElem?_cons_succ] using this

theorem processProducts_failed (w : World) (requestId : Str) (n : Nat)
    (products : List Product) (db : Store) (k : Nat) (e : JsError)
    (hbefore : ∀ i1, i1 < k → ∃ refs1, (outcomes w n products)[i1]? = some (.ok refs1))
    (hfail : (outcomes w n products)[k]? = some (.error e)) :
    (processProducts w requestId n products db).done = some e ∧
      (processProducts w requestId n products db).db.requests = db.requests := by
  induction products generalizing n k db with
  | nil => simp [outcomes] at hfail
  | cons p0 ps ih =>
    cases k with
    | zero =>
      simp only [outcomes, List.getElem?_cons_zero, Option.some.injEq] at hfail
      simp [processProducts, hfail]
    | succ k =>
      obtain ⟨refs0, h0⟩ := hbefore 0 (Nat.succ_pos k)
      simp only [outcomes, List.getElem?_cons_zero, Option.some.injEq] at h0
      simp only [outcomes, List.getElem?_cons_succ] at hfail
      simp only [processProducts, h0]
      have := ih (n + p0.inputImageUrls.length)
        (updateProduct db (jsJoin refs0) requestId p0.productName) k
        (fun i1 hi1 => by
          have := hbefore (i1 + 1) (Nat.succ_lt_succ hi1)
          simpa only [outcomes, List.getElem?_cons_succ] using this) hfail
      exact ⟨this.1, by rw [this.2]; rfl⟩

theorem processProducts_succeeded (w : World) (requestId : Str) (n : Nat)
    (products : List Product) (db : Store)
    (hall : ∀ o ∈ outcomes w n products, ∃ refs, o = .ok refs) :
    (processProducts w requestId n products db).done = none ∧
      (processProducts w requestId n products db).db.requests =
        (completeRequest db requestId).requests := by
  induction products generalizing n db with
  | nil => simp [processProducts]
  | cons p0 ps ih =>
    obtain ⟨refs0, h0⟩ := hall (compressAll w n p0.inputImageUrls) (by simp [outcomes])
    simp only [processProducts, h0]
    have := ih (n + p0.inputImageUrls.length)
      (updateProduct db (jsJoin refs0) requestId p0.productName)
      (fun o ho => hall o (by simp [outcomes, ho]))
    exact ⟨this.1, by rw [this.2]; rfl⟩


theorem outcomes_getElem? (w : World) (n : Nat) (products : List Product) (i : Nat)
    (p : Product) (o : Except JsError (List Str))
    (hp : products[i]? = some p) (ho : (outcomes w n products)[i]? = some o) :
    ∃ m, o = compressAll w m p.inputImageUrls := by
  induction products generalizing n i with
  | nil => simp at hp
  | cons p0 ps ih =>
    cases i with
    | zero =>
      simp only [List.getElem?_cons_zero, Option.some.injEq] at hp
      simp only [outcomes, List.getElem?_cons_zero, Option.some.injEq] at ho
      subst hp
      exact ⟨n, ho.symm⟩
    | succ i =>
      simp only [List.getElem?_cons_succ] at hp
      simp only [outcomes, List.getElem?_cons_succ] at ho
      exact ih _ i hp ho

theorem outcomes_length (w : World) (n : Nat) (products : List Product) :
    (outcomes w n products).length = products.length := by
  induction products generalizing n with
  | nil => rfl
  | cons p ps ih => simp [outcomes, ih]

/-- C1: take a job whose products have pairwise distinct names and whose Request and
Product rows are PENDING, and an outcome pattern in which the products before index `k` go
through and the product at index `k` meets the first failure `e`.  When the handler
finishes, `done` was called with `e`, the `requests` table is as it was (the Request is
still PENDING), every row of a product before `k` is COMPLETED with the comma-joined
artifact references of its locators, in locator order, as output, and every row of the
product at `k` or of a later one is as it was, still PENDING. -/
theorem job_failure_keeps_progress (w : World) (job : Job) (db : Store) (k : Nat)
    (e : JsError)
    (hnodup : (job.products.map fun p => p.productName).Nodup)
    (hreq : ∀ q ∈ db.requests, q.id = job.requestId → q.status = .PENDING)
    (hrows : ∀ r ∈ db.products, r.request_id = job.requestId → r.status = .PENDING)
    (hbefore : ∀ i, i < k → ∃ refs, (outcomes w 0 job.products)[i]? = some (.ok refs))
    (hfail : (outcomes w 0 job.products)[k]? = some (.error e)) :
    (processJob w job db).done = some e ∧
    (processJob w job db).db.requests = db.requests ∧
    (∀ q ∈ (processJob w job db).db.requests, q.id = job.requestId → q.status = .PENDING) ∧
    ∀ (j : Nat) (r : ProductRow) (i : Nat) (p : Product),
      db.products[j]? = some r → r.request_id = job.requestId →
      job.products[i]? = some p → r.product_name = p.productName →
        (i < k → ∃ refs, (outcomes w 0 job.products)[i]? = some (.ok refs) ∧
          List.Forall₂ (IsArtifactOf w) p.inputImageUrls refs ∧
          (processJob w job db).db.products[j]? = some (completedRow r refs)) ∧
        (k ≤ i → (processJob w job db).db.products[j]? = some r ∧ r.status = .PENDING) := by
  obtain ⟨hdone, hrq⟩ := processProducts_failed w job.requestId 0 job.products db k e
    hbefore hfail
  have hprod := processProducts_products w job.requestId 0 job.products db
  refine ⟨hdone, hrq, ?_, ?_⟩
  · intro q hq
    rw [show (processJob w job db).db.requests = db.requests from hrq] at hq
    exact hreq q hq
  · intro j r i p hj hid hp hname
    have hrow : (processJob w job db).db.products[j]? =
        some (rowAfter w job.requestId 0 job.products r) := by
      show (processProducts w job.requestId 0 job.products db).db.products[j]? = _
      rw [hprod, List.getElem?_map, hj]
      rfl
    constructor
    · intro hik
      obtain ⟨refs, hrefs⟩ := hbefore i hik
      obtain ⟨m, hm⟩ := outcomes_getElem? w 0 job.products i p _ hp hrefs
      refine ⟨refs, hrefs, compressAll_forall₂ w m _ _ hm.symm, ?_⟩
      rw [hrow, rowAfter_completed w job.requestId 0 job.products r i p refs hnodup
        (fun i1 hi1 => hbefore i1 (Nat.lt_trans hi1 hik)) hp hrefs hid hname]
    · intro hki
      rw [hrow, rowAfter_untouched w job.requestId 0 job.products r k i p e hnodup hbefore
        hfail hp hki hname]
      exact ⟨rfl, hrows r (List.getElem?_mem hj) hid⟩



/-- C1, at the example job when the first fetch for product `B` (the second call) fails:
`A` is COMPLETED with its artifact, `B` and the Request stay PENDING. -/
theorem job_failure_keeps_progress_witness :
    (processJob (failingWorld 1) exampleJob exampleStore).done =
        some (.external "ECONNREFUSED".toList) ∧
    (processJob (failingWorld 1) exampleJob exampleStore).db.requests =
        exampleStore.requests ∧
    (∀ q ∈ (processJob (failingWorld 1) exampleJob exampleStore).db.requests,
      q.id = exampleJob.requestId → q.status = .PENDING) ∧
    ∀ (j : Nat) (r : ProductRow) (i : Nat) (p : Product),
      exampleStore.products[j]? = some r → r.request_id = exampleJob.requestId →
      exampleJob.products[i]? = some p → r.product_name = p.productName →
        (i < 1 → ∃ refs, (outcomes (failingWorld 1) 0 exampleJob.products)[i]? =
            some (.ok refs) ∧
          List.Forall₂ (IsArtifactOf (failingWorld 1)) p.inputImageUrls refs ∧
          (processJob (failingWorld 1) exampleJob exampleStore).db.products[j]? =
            some (completedRow r refs)) ∧
        (1 ≤ i → (processJob (failingWorld 1) exampleJob exampleStore).db.products[j]? =
            some r ∧ r.status = .PENDING) :=
  job_failure_keeps_progress (failingWorld 1) exampleJob exampleStore 1
    (.external "ECONNREFUSED".toList) (by decide) (by decide) (by decide)
    (fun i hi => ⟨["/app/output/compressed-1700000000000.jpg".toList], by
      obtain rfl : i = 0 := by omega
      decide⟩)
    (by decide)

/-- C2: take a batch that validation accepts and whose products have pairwise distinct
names.  The submission is accepted; right after it the Request row and the Product rows it
inserted are PENDING.  If the inner loop goes through for every product, then when the
queue handler finishes `done` was called with `null`, the Request is COMPLETED, and the
row of every product is COMPLETED with, as output, the comma-joined artifact references of
its locators: one per locator, in locator order. -/
theorem batch_completes (w : World) (requestId : Str) (payload : Payload) (sys : System)
    (st : UploadState)
    (hc : collect payload = .ok st) (hv : st.isValid = true)
    (hnodup : (st.products.map fun p => p.productName).Nodup) :
    ∃ sys1, upload requestId payload sys = .ok (accepted requestId, sys1) ∧
      sys1.queue = sys.queue ++ [{ requestId := requestId, products := st.products }] ∧
      sys1.db.requests = sys.db.requests ++ [{ id := requestId, status := .PENDING }] ∧
      sys1.db.products = sys.db.products ++ st.products.map (pendingRow requestId) ∧
      ((∀ o ∈ outcomes w 0 st.products, ∃ refs, o = .ok refs) →
        (processJob w ⟨requestId, st.products⟩ sys1.db).done = none ∧
        (∀ q ∈ (processJob w ⟨requestId, st.products⟩ sys1.db).db.requests,
          q.id = requestId → q.status = .COMPLETED) ∧
        { id := requestId, status := .COMPLETED } ∈
          (processJob w ⟨requestId, st.products⟩ sys1.db).db.requests ∧
        ∀ (i : Nat) (p : Product), st.products[i]? = some p →
          ∃ refs, (outcomes w 0 st.products)[i]? = some (.ok refs) ∧
            List.Forall₂ (IsArtifactOf w) p.inputImageUrls refs ∧
            (processJob w ⟨requestId, st.products⟩ sys1.db).db.products[
                sys.db.products.length + i]? =
              some (completedRow (pendingRow requestId p) refs)) := by
  refine ⟨_, by simp only [upload, hc]; rw [onEnd_valid _ _ _ hv], rfl, rfl, rfl, ?_⟩
  intro hall
  obtain ⟨hdone, hrq⟩ := processProducts_succeeded w requestId 0 st.products
    { requests := sys.db.requests ++ [{ id := requestId, status := .PENDING }],
      products := sys.db.products ++ st.products.map (pendingRow requestId) } hall
  have hprod := processProducts_products w requestId 0 st.products
    { requests := sys.db.requests ++ [{ id := requestId, status := .PENDING }],
      products := sys.db.products ++ st.products.map (pendingRow requestId) }
  refine ⟨hdone, ?_, ?_, ?_⟩
  · intro q hq hid
    rw [show (processJob w ⟨requestId, st.products⟩ _).db.requests = _ from hrq] at hq
    simp only [completeRequest, List.mem_map] at hq
    obtain ⟨q0, -, rfl⟩ := hq
    by_cases h0 : q0.id = requestId
    · simp [h0]
    · rw [if_neg h0] at hid
      exact absurd hid h0
  · rw [show (processJob w ⟨requestId, st.products⟩ _).db.requests = _ from hrq]
    simp only [completeRequest, List.mem_map]
    exact ⟨{ id := requestId, status := .PENDING }, by simp, by simp⟩
  · intro i p hp
    have hlen : i < (outcomes w 0 st.products).length := by
      rw [outcomes_length]
      exact (List.getElem?_eq_some_iff.mp hp).1
    obtain ⟨refs, hrefs⟩ := hall _ (List.getElem_mem hlen)
    have hget : (outcomes w 0 st.products)[i]? = some (.ok refs) := by
      rw [List.getElem?_eq_getElem hlen, hrefs]
    obtain ⟨m, hm⟩ := outcomes_getElem? w 0 st.products i p _ hp hget
    refine ⟨refs, hget, compressAll_forall₂ w m _ _ hm.symm, ?_⟩
    show (processProducts w requestId 0 st.products _).db.products[_]? = _
    rw [hprod, List.getElem?_map, List.getElem?_append_right (Nat.le_add_right _ _),
      Nat.add_sub_cancel_left, List.getElem?_map, hp]
    simp only [Option.map_some']
    rw [rowAfter_completed w requestId 0 st.products _ i p refs hnodup ?_ hp hget rfl rfl]
    intro i1 hi1
    have hlen1 : i1 < (outcomes w 0 st.products).length := Nat.lt_trans hi1 hlen
    obtain ⟨refs1, hrefs1⟩ := hall _ (List.getElem_mem hlen1)
    exact ⟨refs1, by rw [List.getElem?_eq_getElem hlen1, hrefs1]⟩

theorem exampleWorld_outcomes :
    outcomes exampleWorld 0 exampleProducts =
      [.ok ["/app/output/compressed-1700000000000.jpg".toList],
       .ok ["/app/output/compressed-1700000000001.jpg".toList,
            "/app/output/compressed-1700000000002.jpg".toList]] := by
  decide

/-- C2, at the example batch submitted to an empty system, in a world where every call
succeeds. -/
theorem batch_completes_witness :
    (∀ o ∈ outcomes exampleWorld 0 exampleProducts, ∃ refs, o = .ok refs) ∧
    ∃ sys1, upload exampleId examplePayload System.empty = .ok (accepted exampleId, sys1) ∧
      sys1.queue = System.empty.queue ++ [{ requestId := exampleId, products := exampleProducts }] ∧
      sys1.db.requests = System.empty.db.requests ++ [{ id := exampleId, status := .PENDING }] ∧
      sys1.db.products =
        System.empty.db.products ++ exampleProducts.map (pendingRow exampleId) ∧
      ((∀ o ∈ outcomes exampleWorld 0 exampleProducts, ∃ refs, o = .ok refs) →
        (processJob exampleWorld ⟨exampleId, exampleProducts⟩ sys1.db).done = none ∧
        (∀ q ∈ (processJob exampleWorld ⟨exampleId, exampleProducts⟩ sys1.db).db.requests,
          q.id = exampleId → q.status = .COMPLETED) ∧
        { id := exampleId, status := .COMPLETED } ∈
          (processJob exampleWorld ⟨exampleId, exampleProducts⟩ sys1.db).db.requests ∧
        ∀ (i : Nat) (p : Product), exampleProducts[i]? = some p →
          ∃ refs, (outcomes exampleWorld 0 exampleProducts)[i]? = some (.ok refs) ∧
            List.Forall₂ (IsArtifactOf exampleWorld) p.inputImageUrls refs ∧
            (processJob exampleWorld ⟨exampleId, exampleProducts⟩ sys1.db).db.products[
                System.empty.db.products.length + i]? =
              some (completedRow (pendingRow exampleId p) refs)) :=
  ⟨by
    intro o ho
    rw [exampleWorld_outcomes] at ho
    simp only [List.mem_cons, List.mem_singleton, List.not_mem_nil, or_false] at ho
    rcases ho with rfl | rfl <;> exact ⟨_, rfl⟩,
   batch_completes exampleWorld exampleId examplePayload System.empty
    { products := exampleProducts, isValid := true, errorMessage := [] }
    (by decide) rfl (by decide)⟩


theorem jsSplit_ne_nil (s : Str) : jsSplit s ≠ [] := by
  cases s with
  | nil => simp [jsSplit]
  | cons c cs =>
    simp only [jsSplit]
    split <;> split <;> simp

theorem jsSplit_cons (c : Char) (cs : Str) :
    jsSplit (c :: cs) =
      if c = ',' then [] :: jsSplit cs
      else (c :: (jsSplit cs).headD []) :: (jsSplit cs).tail := by
  have hne := jsSplit_ne_nil cs
  simp only [jsSplit]
  cases h : jsSplit cs with
  | nil => exact absurd h hne
  | cons piece pieces => simp

theorem jsSplit_comma_free (s : Str) : ∀ piece ∈ jsSplit s, ',' ∉ piece := by
  induction s with
  | nil => simp [jsSplit]
  | cons c cs ih =>
    have hne := jsSplit_ne_nil cs
    rw [jsSplit_cons]
    cases h : jsSplit cs with
    | nil => exact absurd h hne
    | cons piece pieces =>
      rw [h] at ih
      by_cases hc : c = ','
      · simp only [hc, if_true, List.mem_cons]
        rintro q (rfl | hq)
        · simp
        · exact ih q (by simpa using hq)
      · simp only [hc, if_false, List.headD_cons, List.tail_cons, List.mem_cons]
        rintro q (rfl | hq)
        · simp only [List.mem_cons, not_or]
          exact ⟨fun h => hc h.symm, ih piece (by simp)⟩
        · exact ih q (by simp [hq])

theorem jsSplit_of_comma_free (x : Str) (h : ',' ∉ x) : jsSplit x = [x] := by
  induction x with
  | nil => rfl
  | cons c cs ih =>
    simp only [List.mem_cons, not_or] at h
    rw [jsSplit_cons, ih h.2, if_neg (fun hc => h.1 hc.symm)]
    rfl

theorem jsSplit_append_comma (x rest : Str) (h : ',' ∉ x) :
    jsSplit (x ++ ',' :: rest) = x :: jsSplit rest := by
  induction x with
  | nil => simp [jsSplit_cons]
  | cons c cs ih =>
    simp only [List.mem_cons, not_or] at h
    rw [List.cons_append, jsSplit_cons, ih h.2, if_neg (fun hc => h.1 hc.symm)]
    rfl

theorem jsSplit_jsJoin (xs : List Str) (hne : xs ≠ []) (h : ∀ x ∈ xs, ',' ∉ x) :
    jsSplit (jsJoin xs) = xs := by
  induction xs with
  | nil => exact absurd rfl hne
  | cons x rest ih =>
    cases rest with
    | nil => exact jsSplit_of_comma_free x (h x (by simp))
    | cons y rest =>
      simp only [jsJoin]
      rw [jsSplit_append_comma x _ (h x (by simp)),
        ih (by simp) (fun z hz => h z (by simp [hz]))]

theorem entries_jsJoin (xs : List Str) (h : ∀ x ∈ xs, ',' ∉ x) :
    entries (jsJoin xs) = max 1 xs.length := by
  cases xs with
  | nil => rfl
  | cons x rest =>
    unfold entries
    rw [jsSplit_jsJoin _ (by simp) h]
    simp only [List.length_cons]
    omega

theorem compressImage_ok (w : World) (n : Nat) (url ref : Str)
    (h : compressImage w n url = .ok ref) : ref = w.outputPath (w.now n) := by
  unfold compressImage at h
  cases h1 : w.axios n url with
  | error e => simp [h1] at h
  | ok buffer =>
    cases h2 : w.sharp n buffer with
    | error e => simp [h1, h2] at h
    | ok compressed =>
      cases h3 : w.writeFileSync n (w.outputPath (w.now n)) compressed with
      | error e => simp [h1, h2, h3] at h
      | ok u =>
        simp only [h1, h2, h3, Except.ok.injEq] at h
        exact h.symm

theorem compressAll_comma_free (w : World) (hw : ∀ t, ',' ∉ w.outputPath t) (n : Nat)
    (urls refs : List Str) (h : compressAll w n urls = .ok refs) :
    refs.length = urls.length ∧ ∀ ref ∈ refs, ',' ∉ ref := by
  have hf := compressAll_forall₂ w n urls refs h
  refine ⟨hf.length_eq.symm, ?_⟩
  clear h
  induction hf with
  | nil => simp
  | cons hab _ ih =>
    intro ref href
    rcases List.mem_cons.mp href with rfl | href
    · obtain ⟨m, hm⟩ := hab
      rw [compressImage_ok w m _ _ hm]
      exact hw _
    · exact ih ref href

theorem updateProduct_eq (db : Store) (output requestId productName : Str) :
    (updateProduct db output requestId productName).products =
      db.products.map (updateRow output requestId productName) := rfl

/-- The property of C3 along the outer loop. -/
theorem processProducts_history (w : World) (hw : ∀ t, ',' ∉ w.outputPath t)
    (requestId : Str) (n : Nat) (products : List Product) (db : Store)
    (hinputs : ∀ p ∈ products, ∀ u ∈ p.inputImageUrls, ',' ∉ u)
    (hrows : ∀ r ∈ db.products, r.request_id = requestId → ∀ p ∈ products,
      r.product_name = p.productName → r.input_image_urls = jsJoin p.inputImageUrls)
    (hinv : LengthsAgree db) :
    ∀ s ∈ (processProducts w requestId n products db).history, LengthsAgree s := by
  induction products generalizing n db with
  | nil =>
    intro s hs
    simp only [processProducts, List.mem_singleton] at hs
    subst hs
    exact hinv
  | cons p ps ih =>
    simp only [processProducts]
    cases hc : compressAll w n p.inputImageUrls with
    | error e => simp
    | ok refs =>
      obtain ⟨hlen, hfree⟩ := compressAll_comma_free w hw n _ _ hc
      have hinv1 : LengthsAgree (updateProduct db (jsJoin refs) requestId p.productName) := by
        intro r1 hr1 hst
        rw [updateProduct_eq] at hr1
        obtain ⟨r, hr, rfl⟩ := List.mem_map.mp hr1
        unfold updateRow at hst ⊢
        by_cases hm : r.request_id = requestId ∧ r.product_name = p.productName
        · rw [if_pos hm]
          simp only [Option.map_some', Option.some.injEq]
          rw [hrows r hr hm.1 p (by simp) hm.2, entries_jsJoin _ hfree,
            entries_jsJoin _ (hinputs p (by simp)), hlen]
        · rw [if_neg hm] at hst ⊢
          exact hinv r hr hst
      have hrows1 : ∀ r ∈ (updateProduct db (jsJoin refs) requestId p.productName).products,
          r.request_id = requestId → ∀ q ∈ ps, r.product_name = q.productName →
            r.input_image_urls = jsJoin q.inputImageUrls := by
        intro r1 hr1 hid q hq hname
        rw [updateProduct_eq] at hr1
        obtain ⟨r, hr, rfl⟩ := List.mem_map.mp hr1
        unfold updateRow at hid hname ⊢
        by_cases hm : r.request_id = requestId ∧ r.product_name = p.productName
        · rw [if_pos hm] at hid hname ⊢
          exact hrows r hr hid q (by simp [hq]) hname
        · rw [if_neg hm] at hid hname ⊢
          exact hrows r hr hid q (by simp [hq]) hname
      intro s hs
      simp only [List.mem_cons] at hs
      rcases hs with rfl | hs
      · exact hinv1
      · exact ih _ _ (fun q hq => hinputs q (by simp [hq])) hrows1 hinv1 s hs


theorem onData_inputs (row : Row) (st st1 : UploadState) (h : onData row st = .ok st1) :
    ∀ p ∈ st1.products, p ∈ st.products ∨ ∃ urls, p.inputImageUrls = jsSplit urls := by
  cases hs : st.isValid with
  | false =>
    simp only [onData, hs, Bool.false_eq_true, if_false, Except.ok.injEq] at h
    subst h
    exact fun p hp => Or.inl hp
  | true =>
    cases hu : row colUrls with
    | none => simp [onData, hs, hu, isValidUrlList] at h
    | some urls =>
      rw [onData_valid row st urls hs hu, Except.ok.injEq] at h
      subst h
      intro p hp
      split at hp
      · simp only [List.mem_append, List.mem_singleton] at hp
        rcases hp with hp | rfl
        · exact Or.inl hp
        · exact Or.inr ⟨urls, rfl⟩
      · exact Or.inl hp

theorem onRows_inputs (rows : List Row) (st st1 : UploadState) (h : onRows rows st = .ok st1) :
    ∀ p ∈ st1.products, p ∈ st.products ∨ ∃ urls, p.inputImageUrls = jsSplit urls := by
  induction rows generalizing st with
  | nil =>
    simp only [onRows, Except.ok.injEq] at h
    subst h
    exact fun p hp => Or.inl hp
  | cons row rows ih =>
    simp only [onRows] at h
    cases hd : onData row st with
    | error e => simp [hd] at h
    | ok s =>
      simp only [hd] at h
      intro p hp
      rcases ih s h p hp with h1 | h1
      · exact onData_inputs row st s hd p h1
      · exact Or.inr h1

theorem collect_inputs (payload : Payload) (st : UploadState) (h : collect payload = .ok st) :
    ∀ p ∈ st.products, ∀ u ∈ p.inputImageUrls, ',' ∉ u := by
  intro p hp u hu
  rcases onRows_inputs payload.rows _ st h p hp with h1 | ⟨urls, h1⟩
  · rw [afterHeaders_products] at h1
    simp at h1
  · rw [h1] at hu
    exact jsSplit_comma_free urls u hu

/-- C3 (as stated, refuted): two accepted batches with a COMPLETED row whose output list
and input list differ in length.  In the first, two rows carry the same product name: the
update for the first product also rewrites the row of the second.  In the second, the
artifact references contain a comma, and the output list is stored comma-joined. -/
theorem completed_lengths_can_differ :
    (upload exampleId duplicatePayload System.empty =
        .ok (accepted exampleId,
          { db := { requests := [{ id := exampleId, status := .PENDING }],
                    products := duplicateProducts.map (pendingRow exampleId) },
            queue := [{ requestId := exampleId, products := duplicateProducts }] }) ∧
      ¬ ∀ s ∈ (processJob exampleWorld { requestId := exampleId, products := duplicateProducts }
          { requests := [{ id := exampleId, status := .PENDING }],
            products := duplicateProducts.map (pendingRow exampleId) }).history,
        LengthsAgree s) ∧
    (upload exampleId examplePayload System.empty =
        .ok (accepted exampleId, { db := exampleStore, queue := [exampleJob] }) ∧
      ¬ ∀ s ∈ (processJob commaWorld exampleJob exampleStore).history, LengthsAgree s) := by
  decide

/-- C3 (amended): take a batch that validation accepts and whose products have pairwise
distinct names, submitted to a store that holds no product row of its `requestId` and in
which the property holds, and a world whose artifact references contain no comma.  In
every store state from the submission to the end of the job, whatever the outcomes, each
COMPLETED product row has an output list with as many entries as its input list. -/
theorem completed_rows_agree (w : World) (requestId : Str) (payload : Payload)
    (sys sys1 : System) (st : UploadState)
    (hc : collect payload = .ok st)
    (hup : upload requestId payload sys = .ok (accepted requestId, sys1))
    (hnodup : (st.products.map fun p => p.productName).Nodup)
    (hw : ∀ t, ',' ∉ w.outputPath t)
    (hfresh : ∀ r ∈ sys.db.products, r.request_id ≠ requestId)
    (hinv : LengthsAgree sys.db) :
    ∀ s ∈ (processJob w { requestId := requestId, products := st.products } sys1.db).history,
      LengthsAgree s := by
  have hv : st.isValid = true := by
    cases hb : st.isValid with
    | true => rfl
    | false =>
      simp only [upload, hc, Except.ok.injEq] at hup
      rw [onEnd_invalid _ _ _ hb, Prod.mk.injEq] at hup
      have := congrArg Response.status hup.1
      simp [rejected, accepted] at this
  simp only [upload, hc, Except.ok.injEq] at hup
  rw [onEnd_valid _ _ _ hv, Prod.mk.injEq] at hup
  obtain ⟨-, rfl⟩ := hup
  have hinv1 : LengthsAgree
      { requests := sys.db.requests ++ [{ id := requestId, status := .PENDING }],
        products := sys.db.products ++ st.products.map (pendingRow requestId) } := by
    intro r hr hst
    simp only [List.mem_append, List.mem_map] at hr
    rcases hr with hr | ⟨p, -, rfl⟩
    · exact hinv r hr hst
    · simp [pendingRow] at hst
  intro s hs
  simp only [processJob, List.mem_cons] at hs
  rcases hs with rfl | hs
  · exact hinv1
  · refine processProducts_history w hw requestId 0 st.products _ (collect_inputs payload st hc)
      ?_ hinv1 s hs
    intro r hr hid p hp hname
    simp only [List.mem_append, List.mem_map] at hr
    rcases hr with hr | ⟨q, hq, rfl⟩
    · exact absurd hid (hfresh r hr)
    · have : q = p := List.inj_on_of_nodup_map hnodup hq hp hname
      subst this
      rfl

theorem digitChar_ne_comma (m : Nat) (h : m < 10) : Nat.digitChar m ≠ ',' := by
  revert m
  decide

theorem toDigitsCore_comma_free (fuel n : Nat) (ds : List Char) (h : ',' ∉ ds) :
    ',' ∉ Nat.toDigitsCore 10 fuel n ds := by
  induction fuel generalizing n ds with
  | zero => simpa [Nat.toDigitsCore] using h
  | succ fuel ih =>
    have hd : ',' ∉ Nat.digitChar (n % 10) :: ds := by
      simp only [List.mem_cons, not_or]
      exact ⟨fun hc => digitChar_ne_comma _ (Nat.mod_lt _ (by decide)) hc.symm, h⟩
    simp only [Nat.toDigitsCore]
    split
    · exact hd
    · exact ih _ _ hd

theorem exampleWorld_comma_free (t : Nat) : ',' ∉ exampleWorld.outputPath t := by
  simp only [exampleWorld, List.mem_append, not_or]
  exact ⟨⟨by decide, toDigitsCore_comma_free _ _ _ (by simp)⟩, by decide⟩

/-- C3 (amended), at the example batch submitted to an empty system, when the first fetch
for product `B` fails. -/
theorem completed_rows_agree_witness :
    upload exampleId examplePayload System.empty =
        .ok (accepted exampleId, { db := exampleStore, queue := [exampleJob] }) ∧
      ∀ s ∈ (processJob (failingWorld 1)
          { requestId := exampleId, products := exampleProducts } exampleStore).history,
        LengthsAgree s :=
  ⟨by decide,
   completed_rows_agree (failingWorld 1) exampleId examplePayload System.empty
    { db := exampleStore, queue := [exampleJob] }
    { products := exampleProducts, isValid := true, errorMessage := [] }
    (by decide) (by decide) (by decide) exampleWorld_comma_free (by decide) (by decide)⟩


/-! ## The URL pattern -/

namespace Regex

theorem nullable_iff (r : Regex) : nullable r = true ↔ Matches r [] := by
  induction r with
  | fail => simp [nullable, Matches]
  | eps => simp [nullable, Matches]
  | cls p => simp [nullable, Matches]
  | alt a b iha ihb => simp [nullable, Matches, iha, ihb]
  | seq a b iha ihb =>
    simp only [nullable, Matches, Bool.and_eq_true, iha, ihb]
    constructor
    · rintro ⟨ha, hb⟩
      exact ⟨[], [], rfl, ha, hb⟩
    · rintro ⟨u, v, huv, ha, hb⟩
      obtain ⟨rfl, rfl⟩ := List.append_eq_nil.mp huv.symm
      exact ⟨ha, hb⟩
  | star a _ =>
    simp only [nullable, Matches, true_iff]
    exact ⟨[], rfl, by simp⟩

theorem star_cons_iff (a : Regex) (c : Char) (s : List Char) :
    Matches (star a) (c :: s) ↔
      ∃ u v, s = u ++ v ∧ Matches a (c :: u) ∧ Matches (star a) v := by
  constructor
  · rintro ⟨L, hL, hall⟩
    induction L with
    | nil => simp at hL
    | cons x L ih =>
      cases x with
      | nil =>
        simp only [List.flatten_cons, List.nil_append] at hL
        exact ih hL (fun u hu => hall u (by simp [hu]))
      | cons d x =>
        simp only [List.flatten_cons, List.cons_append, List.cons.injEq] at hL
        obtain ⟨rfl, rfl⟩ := hL
        exact ⟨x, L.flatten, rfl, hall _ (by simp), L, rfl, fun u hu => hall u (by simp [hu])⟩
  · rintro ⟨u, v, rfl, hu, L, rfl, hall⟩
    refine ⟨(c :: u) :: L, by simp, ?_⟩
    intro x hx
    rcases List.mem_cons.mp hx with rfl | hx
    · exact hu
    · exact hall x hx

theorem deriv_iff (r : Regex) (c : Char) (s : List Char) :
    Matches (deriv r c) s ↔ Matches r (c :: s) := by
  induction r generalizing s with
  | fail => simp [deriv, Matches]
  | eps => simp [deriv, Matches]
  | cls p =>
    by_cases hp : p c = true
    · simp only [deriv, hp, if_true, Matches]
      constructor
      · rintro rfl
        exact ⟨c, rfl, hp⟩
      · rintro ⟨x, hx, -⟩
        simp only [List.cons.injEq] at hx
        exact hx.2
    · simp only [deriv, hp, Bool.false_eq_true, if_false, Matches, false_iff]
      rintro ⟨x, hx, hpx⟩
      simp only [List.cons.injEq] at hx
      rw [← hx.1] at hpx
      exact hp hpx
  | alt a b iha ihb => simp [deriv, Matches, iha, ihb]
  | seq a b iha ihb =>
    have key : Matches (seq a b) (c :: s) ↔
        (∃ u v, s = u ++ v ∧ Matches a (c :: u) ∧ Matches b v) ∨
          (Matches a [] ∧ Matches b (c :: s)) := by
      simp only [Matches]
      constructor
      · rintro ⟨u, v, huv, hu, hv⟩
        cases u with
        | nil =>
          simp only [List.nil_append] at huv
          subst huv
          exact Or.inr ⟨hu, hv⟩
        | cons d u =>
          simp only [List.cons_append, List.cons.injEq] at huv
          obtain ⟨rfl, rfl⟩ := huv
          exact Or.inl ⟨u, v, rfl, hu, hv⟩
      · rintro (⟨u, v, rfl, hu, hv⟩ | ⟨ha, hb⟩)
        · exact ⟨c :: u, v, rfl, hu, hv⟩
        · exact ⟨[], c :: s, rfl, ha, hb⟩
    rw [key]
    by_cases hn : nullable a = true
    · simp only [deriv, hn, if_true, Matches, iha, ihb]
      rw [← nullable_iff, hn]
      simp
    · simp only [deriv, hn, Bool.false_eq_true, if_false, Matches, iha]
      rw [← nullable_iff]
      simp [hn]
  | star a iha =>
    rw [star_cons_iff]
    simp only [deriv, Matches, iha]

/-- The matcher decides the language of the pattern. -/
theorem test_iff (r : Regex) (s : List Char) : test r s = true ↔ Matches r s := by
  induction s generalizing r with
  | nil => exact nullable_iff r
  | cons c s ih => rw [test, ih, deriv_iff]

end Regex


namespace Regex

theorem matches_opt (r : Regex) (s : List Char) : Matches (opt r) s ↔ Matches r s ∨ s = [] :=
  Iff.rfl

theorem matches_star_cls (p : Char → Bool) (s : List Char) :
    Matches (star (cls p)) s ↔ ∀ c ∈ s, p c = true := by
  constructor
  · rintro ⟨L, rfl, hall⟩ c hc
    obtain ⟨u, hu, hcu⟩ := List.mem_flatten.mp hc
    obtain ⟨x, rfl, hx⟩ := hall u hu
    simp only [List.mem_singleton] at hcu
    rw [hcu]
    exact hx
  · intro h
    refine ⟨s.map (fun c => [c]), ?_, ?_⟩
    · clear h
      induction s with
      | nil => rfl
      | cons c s ih => simp [← ih]
    · intro u hu
      obtain ⟨c, hc, rfl⟩ := List.mem_map.mp hu
      exact ⟨c, rfl, h c hc⟩

theorem matches_plus_cls (p : Char → Bool) (s : List Char) :
    Matches (plus (cls p)) s ↔ s ≠ [] ∧ ∀ c ∈ s, p c = true := by
  unfold plus
  simp only [Matches.eq_5, matches_star_cls]
  constructor
  · rintro ⟨u, v, rfl, ⟨c, rfl, hc⟩, hv⟩
    refine ⟨by simp, ?_⟩
    intro x hx
    simp only [List.singleton_append, List.mem_cons] at hx
    rcases hx with rfl | hx
    · exact hc
    · exact hv x hx
  · rintro ⟨hne, hall⟩
    cases s with
    | nil => exact absurd rfl hne
    | cons c s =>
      exact ⟨[c], s, rfl, ⟨c, rfl, hall c (by simp)⟩, fun x hx => hall x (by simp [hx])⟩

theorem matches_plus (r : Regex) (s : List Char) :
    Matches (plus r) s ↔ ∃ L, L ≠ [] ∧ (∀ u ∈ L, Matches r u) ∧ s = L.flatten := by
  unfold plus
  constructor
  · rintro ⟨u, v, rfl, hu, L, rfl, hL⟩
    refine ⟨u :: L, by simp, ?_, by simp⟩
    intro x hx
    rcases List.mem_cons.mp hx with rfl | hx
    · exact hu
    · exact hL x hx
  · rintro ⟨L, hne, hall, rfl⟩
    cases L with
    | nil => exact absurd rfl hne
    | cons u L =>
      exact ⟨u, L.flatten, by simp, hall u (by simp), L, rfl, fun x hx => hall x (by simp [hx])⟩

end Regex

theorem toLower_of_not_upper (x : Char) (h : ¬ (x.toNat ≥ 65 ∧ x.toNat ≤ 90)) :
    x.toLower = x := by
  unfold Char.toLower
  simp only [h, if_false]

/-- Under the `i` flag a punctuation character of the pattern matches itself only. -/
theorem chr_punct (x c : Char) (hc : c = '.' ∨ c = ':' ∨ c = '/' ∨ c = '?' ∨ c = '#') :
    (x.toLower == c.toLower) = true ↔ x = c := by
  have hcl : c.toLower = c := by rcases hc with rfl | rfl | rfl | rfl | rfl <;> rfl
  rw [hcl, beq_iff_eq]
  by_cases h : x.toNat ≥ 65 ∧ x.toNat ≤ 90
  · have hx : x = Char.ofNat x.toNat := (Char.ofNat_toNat x).symm
    obtain ⟨h1, h2⟩ := h
    generalize x.toNat = n at hx h1 h2
    subst hx
    interval_cases n <;> rcases hc with rfl | rfl | rfl | rfl | rfl <;> decide
  · rw [toLower_of_not_upper x h]

theorem matches_punct (c : Char) (hc : c = '.' ∨ c = ':' ∨ c = '/' ∨ c = '?' ∨ c = '#')
    (s : List Char) : Regex.Matches (Regex.chr c) s ↔ s = [c] := by
  unfold Regex.chr
  simp only [Regex.Matches]
  constructor
  · rintro ⟨x, rfl, hx⟩
    rw [(chr_punct x c hc).mp hx]
  · rintro rfl
    exact ⟨c, rfl, (chr_punct c c hc).mpr rfl⟩

theorem matches_lit (cs s : List Char) :
    Regex.Matches (Regex.lit cs) s ↔ s.map Char.toLower = cs.map Char.toLower := by
  induction cs generalizing s with
  | nil => simp [Regex.lit, Regex.Matches]
  | cons c cs ih =>
    simp only [Regex.lit, Regex.chr, Regex.Matches, ih, List.map_cons]
    constructor
    · rintro ⟨u, v, rfl, ⟨x, rfl, hx⟩, hv⟩
      simp only [List.singleton_append, List.map_cons, hv, beq_iff_eq.mp hx]
    · intro h
      obtain ⟨x, v, rfl, hx, hv⟩ := List.map_eq_cons_iff.mp h
      exact ⟨[x], v, rfl, ⟨x, rfl, by simp [hx]⟩, hv⟩

theorem matches_protocol (s : List Char) : Regex.Matches protocolPattern s ↔ IsScheme s := by
  unfold protocolPattern IsScheme
  rw [Regex.matches_opt]
  simp only [Regex.Matches.eq_5, Regex.matches_opt, matches_lit]
  have hs : ∀ v, Regex.Matches (Regex.chr 's') v ↔ v.map Char.toLower = ['s'] := by
    intro v
    have := matches_lit ['s'] v
    simp only [Regex.lit, Regex.Matches] at this
    simp only [Regex.Matches.eq_3, Regex.chr] at this ⊢
    rw [show (['s'] : List Char) = List.map Char.toLower ['s'] from rfl, ← this]
    constructor
    · rintro ⟨x, rfl, hx⟩
      exact ⟨[x], [], rfl, ⟨x, rfl, hx⟩, rfl⟩
    · rintro ⟨u, v, rfl, ⟨x, rfl, hx⟩, rfl⟩
      exact ⟨x, rfl, hx⟩
  simp only [hs]
  constructor
  · rintro (⟨u, t, rfl, hu, v, w, rfl, hv | rfl, hw⟩ | rfl)
    · right; right
      simp only [List.map_append, hu, hv, hw]
      rfl
    · right; left
      simp only [List.map_append, hu, hw, List.nil_append]
      rfl
    · left; rfl
  · rintro (rfl | h | h)
    · right; rfl
    · left
      have h1 : s.map Char.toLower = "http".toList.map Char.toLower ++ "://".toList.map Char.toLower := by
        rw [h]; rfl
      obtain ⟨u, w, rfl, hu, hw⟩ := List.map_eq_append_iff.mp h1
      exact ⟨u, w, rfl, hu, [], w, rfl, Or.inr rfl, hw⟩
    · left
      have h1 : s.map Char.toLower =
          "http".toList.map Char.toLower ++ (['s'] ++ "://".toList.map Char.toLower) := by
        rw [h]; rfl
      obtain ⟨u, t, rfl, hu, ht⟩ := List.map_eq_append_iff.mp h1
      obtain ⟨v, w, rfl, hv, hw⟩ := List.map_eq_append_iff.mp ht
      exact ⟨u, v ++ w, rfl, hu, v, w, rfl, Or.inl hv, hw⟩

theorem isAlnumHyphen_of_isAlnum (c : Char) (h : isAlnum c = true) :
    isAlnumHyphen c = true := by
  simp [isAlnumHyphen, h]

theorem matches_label_tail (t : List Char) :
    Regex.Matches (Regex.star (Regex.seq (Regex.star (Regex.cls isAlnumHyphen))
        (Regex.cls isAlnum))) t ↔
      (∀ c ∈ t, isAlnumHyphen c = true) ∧ ∀ c, t.getLast? = some c → isAlnum c = true := by
  constructor
  · rintro ⟨L, rfl, hall⟩
    have hpiece : ∀ u ∈ L, ∃ m a, u = m ++ [a] ∧ (∀ c ∈ m, isAlnumHyphen c = true) ∧
        isAlnum a = true := by
      intro u hu
      obtain ⟨m, v, rfl, hm, a, rfl, ha⟩ := hall u hu
      exact ⟨m, a, rfl, (Regex.matches_star_cls _ _).mp hm, ha⟩
    constructor
    · intro c hc
      obtain ⟨u, hu, hcu⟩ := List.mem_flatten.mp hc
      obtain ⟨m, a, rfl, hm, ha⟩ := hpiece u hu
      rcases List.mem_append.mp hcu with h | h
      · exact hm c h
      · simp only [List.mem_singleton] at h
        rw [h]
        exact isAlnumHyphen_of_isAlnum a ha
    · intro c hc
      rcases List.eq_nil_or_concat L with rfl | ⟨L1, u, rfl⟩
      · simp at hc
      · obtain ⟨m, a, rfl, -, ha⟩ := hpiece u (by simp)
        simp only [List.concat_eq_append, List.flatten_append, List.flatten_cons,
          List.flatten_nil, List.append_nil] at hc
        rw [← List.append_assoc, List.getLast?_append] at hc
        simp only [List.getLast?_singleton, Option.or, Option.some.injEq] at hc
        rw [← hc]
        exact ha
  · rintro ⟨hall, hlast⟩
    rcases List.eq_nil_or_concat t with rfl | ⟨m, a, rfl⟩
    · exact ⟨[], rfl, by simp⟩
    · simp only [List.concat_eq_append] at hall hlast ⊢
      refine ⟨[m ++ [a]], by simp, ?_⟩
      intro u hu
      simp only [List.mem_singleton] at hu
      subst hu
      refine ⟨m, [a], rfl, (Regex.matches_star_cls _ _).mpr (fun c hc => hall c (by simp [hc])),
        a, rfl, hlast a (by simp)⟩

theorem matches_label (l : List Char) : Regex.Matches labelPattern l ↔ IsLabel l := by
  unfold labelPattern IsLabel
  simp only [Regex.Matches.eq_5, matches_label_tail]
  constructor
  · rintro ⟨u, t, rfl, ⟨c, rfl, hc⟩, hall, hlast⟩
    refine ⟨?_, ⟨c, rfl, hc⟩, ?_⟩
    · intro x hx
      simp only [List.singleton_append, List.mem_cons] at hx
      rcases hx with rfl | hx
      · exact isAlnumHyphen_of_isAlnum _ hc
      · exact hall x hx
    · cases ht : t.getLast? with
      | none =>
        rw [List.getLast?_eq_none_iff] at ht
        subst ht
        exact ⟨c, rfl, hc⟩
      | some a =>
        refine ⟨a, ?_, hlast a ht⟩
        rw [List.getLast?_append, ht]
        rfl
  · rintro ⟨hall, ⟨c, hhead, hc⟩, ⟨a, hlast, ha⟩⟩
    cases l with
    | nil => simp at hhead
    | cons d t =>
      simp only [List.head?_cons, Option.some.injEq] at hhead
      subst hhead
      refine ⟨[d], t, rfl, ⟨d, rfl, hc⟩, fun x hx => hall x (by simp [hx]), ?_⟩
      intro x hx
      have : (d :: t).getLast? = some x := by
        rw [show d :: t = [d] ++ t from rfl, List.getLast?_append, hx]
        rfl
      rw [this, Option.some.injEq] at hlast
      rw [hlast]
      exact ha

theorem matches_letters (t : List Char) :
    Regex.Matches (Regex.seq (Regex.cls isLetter)
        (Regex.seq (Regex.cls isLetter) (Regex.star (Regex.cls isLetter)))) t ↔
      2 ≤ t.length ∧ ∀ c ∈ t, isLetter c = true := by
  simp only [Regex.Matches.eq_5, Regex.matches_star_cls]
  constructor
  · rintro ⟨u, r, rfl, ⟨a, rfl, ha⟩, v, w, rfl, ⟨b, rfl, hb⟩, hw⟩
    refine ⟨by simp, ?_⟩
    intro c hc
    simp only [List.singleton_append, List.mem_cons] at hc
    rcases hc with rfl | rfl | hc
    · exact ha
    · exact hb
    · exact hw c hc
  · rintro ⟨hlen, hall⟩
    match t, hlen, hall with
    | a :: b :: w, _, hall =>
      exact ⟨[a], b :: w, rfl, ⟨a, rfl, hall a (by simp)⟩, [b], w, rfl,
        ⟨b, rfl, hall b (by simp)⟩, fun c hc => hall c (by simp [hc])⟩

theorem matches_domain (h : List Char) : Regex.Matches domainPattern h ↔ IsDomain h := by
  unfold domainPattern IsDomain
  constructor
  · rintro ⟨u, tld, rfl, hu, htld⟩
    obtain ⟨L, hne, hall, rfl⟩ := (Regex.matches_plus _ _).mp hu
    obtain ⟨hlen, hletters⟩ := (matches_letters tld).mp htld
    refine ⟨L, tld, hne, ?_, hlen, hletters, rfl⟩
    intro x hx
    obtain ⟨l, d, rfl, hl, hd⟩ := hall x hx
    have hlabel := (matches_label l).mp hl
    rcases (Regex.matches_opt _ _).mp hd with hd | rfl
    · rw [(matches_punct '.' (Or.inl rfl) d).mp hd]
      exact ⟨l, hlabel, Or.inr rfl⟩
    · exact ⟨l, hlabel, Or.inl (by simp)⟩
  · rintro ⟨L, tld, hne, hall, hlen, hletters, rfl⟩
    refine ⟨L.flatten, tld, rfl, (Regex.matches_plus _ _).mpr ⟨L, hne, ?_, rfl⟩,
      (matches_letters tld).mpr ⟨hlen, hletters⟩⟩
    intro x hx
    obtain ⟨l, hl, rfl | rfl⟩ := hall x hx
    · exact ⟨x, [], by simp, (matches_label x).mpr hl, Or.inr rfl⟩
    · exact ⟨l, ['.'], rfl, (matches_label l).mpr hl,
        Or.inl ((matches_punct '.' (Or.inl rfl) _).mpr rfl)⟩

theorem matches_octet (o : List Char) : Regex.Matches octetPattern o ↔ IsOctet o := by
  unfold octetPattern IsOctet
  simp only [Regex.Matches.eq_5, Regex.matches_opt, Regex.Matches.eq_3]
  constructor
  · rintro ⟨u, r, rfl, ⟨a, rfl, ha⟩, v, w, rfl, hv, hw⟩
    rcases hv with ⟨b, rfl, hb⟩ | rfl <;> rcases hw with ⟨c, rfl, hc⟩ | rfl <;>
      simp [ha, *]
  · rintro ⟨h1, h3, hall⟩
    match o, h1, h3, hall with
    | [a], _, _, hall =>
      exact ⟨[a], [], rfl, ⟨a, rfl, hall a (by simp)⟩, [], [], rfl, Or.inr rfl, Or.inr rfl⟩
    | [a, b], _, _, hall =>
      exact ⟨[a], [b], rfl, ⟨a, rfl, hall a (by simp)⟩, [b], [], rfl,
        Or.inl ⟨b, rfl, hall b (by simp)⟩, Or.inr rfl⟩
    | [a, b, c], _, _, hall =>
      exact ⟨[a], [b, c], rfl, ⟨a, rfl, hall a (by simp)⟩, [b], [c], rfl,
        Or.inl ⟨b, rfl, hall b (by simp)⟩, Or.inl ⟨c, rfl, hall c (by simp)⟩⟩
    | _ :: _ :: _ :: _ :: _, _, h3, _ => simp at h3

theorem matches_ip (h : List Char) : Regex.Matches ipPattern h ↔ IsDottedQuad h := by
  unfold ipPattern IsDottedQuad
  simp only [Regex.Matches.eq_5, matches_octet, matches_punct '.' (Or.inl rfl)]
  constructor
  · rintro ⟨_, _, rfl, ⟨a, _, rfl, ha, rfl⟩, _, _, rfl, ⟨b, _, rfl, hb, rfl⟩, _, d, rfl,
      ⟨c, _, rfl, hc, rfl⟩, hd⟩
    exact ⟨a, b, c, d, ha, hb, hc, hd, by simp⟩
  · rintro ⟨a, b, c, d, ha, hb, hc, hd, rfl⟩
    exact ⟨a ++ ['.'], (b ++ ['.']) ++ ((c ++ ['.']) ++ d), by simp,
      ⟨a, ['.'], rfl, ha, rfl⟩, b ++ ['.'], (c ++ ['.']) ++ d, rfl,
      ⟨b, ['.'], rfl, hb, rfl⟩, c ++ ['.'], d, rfl, ⟨c, ['.'], rfl, hc, rfl⟩, hd⟩

theorem matches_port (p : List Char) : Regex.Matches portPattern p ↔ IsPort p := by
  unfold portPattern IsPort
  simp only [Regex.matches_opt, Regex.Matches.eq_5, Regex.matches_plus_cls,
    matches_punct ':' (Or.inr (Or.inl rfl))]
  constructor
  · rintro (⟨_, ds, rfl, rfl, hne, hall⟩ | rfl)
    · exact Or.inr ⟨ds, hne, hall, rfl⟩
    · exact Or.inl rfl
  · rintro (rfl | ⟨ds, hne, hall, rfl⟩)
    · exact Or.inr rfl
    · exact Or.inl ⟨[':'], ds, rfl, rfl, hne, hall⟩

theorem matches_path (p : List Char) : Regex.Matches pathPattern p ↔ IsPath p := by
  unfold pathPattern IsPath
  constructor
  · rintro ⟨L, rfl, hall⟩
    refine ⟨L, ?_, rfl⟩
    intro u hu
    obtain ⟨sl, body, rfl, hsl, hbody⟩ := hall u hu
    rw [(matches_punct '/' (Or.inr (Or.inr (Or.inl rfl))) sl).mp hsl]
    exact ⟨body, (Regex.matches_star_cls _ _).mp hbody, rfl⟩
  · rintro ⟨L, hall, rfl⟩
    refine ⟨L, rfl, ?_⟩
    intro u hu
    obtain ⟨body, hbody, rfl⟩ := hall u hu
    exact ⟨['/'], body, rfl, (matches_punct '/' (Or.inr (Or.inr (Or.inl rfl))) _).mpr rfl,
      (Regex.matches_star_cls _ _).mpr hbody⟩

theorem matches_query (q : List Char) : Regex.Matches queryPattern q ↔ IsQuery q := by
  unfold queryPattern IsQuery
  simp only [Regex.matches_opt, Regex.Matches.eq_5, Regex.matches_star_cls,
    matches_punct '?' (Or.inr (Or.inr (Or.inr (Or.inl rfl))))]
  constructor
  · rintro (⟨_, body, rfl, rfl, hall⟩ | rfl)
    · exact Or.inr ⟨body, hall, rfl⟩
    · exact Or.inl rfl
  · rintro (rfl | ⟨body, hall, rfl⟩)
    · exact Or.inr rfl
    · exact Or.inl ⟨['?'], body, rfl, rfl, hall⟩

theorem matches_fragment (f : List Char) : Regex.Matches fragmentPattern f ↔ IsFragment f := by
  unfold fragmentPattern IsFragment
  simp only [Regex.matches_opt, Regex.Matches.eq_5, Regex.matches_star_cls,
    matches_punct '#' (Or.inr (Or.inr (Or.inr (Or.inr rfl))))]
  constructor
  · rintro (⟨_, body, rfl, rfl, hall⟩ | rfl)
    · exact Or.inr ⟨body, hall, rfl⟩
    · exact Or.inl rfl
  · rintro (rfl | ⟨body, hall, rfl⟩)
    · exact Or.inr rfl
    · exact Or.inl ⟨['#'], body, rfl, rfl, hall⟩

/-- C7 (as stated, refuted): `isValidUrl` accepts `http://example.c0mm/a.jpg`, whose last
dot-separated label `c0mm` is not made of letters, so the host is not a sequence of
dot-separated labels ending in a top-level label of two or more letters. -/
theorem isValidUrl_accepts_digit_in_last_label :
    isValidUrl "http://example.c0mm/a.jpg".toList = true ∧
      specIsValidUrl "http://example.c0mm/a.jpg".toList = false := by
  decide

/-- C7 (amended): `isValidUrl(s)` is true exactly when `s` consists of an optional
`http://` or `https://` (in any case), then a host that is either one or more labels, each
followed by a dot or by nothing, and then two or more letters, or a dotted quad of four
groups of one to three digits, then an optional colon and digits, any number of path
segments, an optional query and an optional fragment, with nothing before or after. -/
theorem isValidUrl_iff (s : Str) : isValidUrl s = true ↔ IsUrl s := by
  unfold isValidUrl IsUrl urlPattern
  rw [Regex.test_iff]
  simp only [Regex.Matches.eq_5, Regex.Matches.eq_4, matches_protocol, matches_domain,
    matches_ip, matches_port, matches_path, matches_query, matches_fragment]
  constructor
  · rintro ⟨a, _, rfl, ha, b, _, rfl, hb, c, _, rfl, hc, d, _, rfl, hd, e, f, rfl, he, hf⟩
    exact ⟨a, b, c, d, e, f, ha, hb, hc, hd, he, hf, rfl⟩
  · rintro ⟨a, b, c, d, e, f, ha, hb, hc, hd, he, hf, rfl⟩
    exact ⟨a, _, rfl, ha, b, _, rfl, hb, c, _, rfl, hc, d, _, rfl, hd, e, f, rfl, he, hf⟩

/-- The same at a payload whose header has no `Input Image Urls` column. -/
theorem upload_missing_column_witness :
    collect { headers := some [colSerial, colName],
              rows := [shortRow "1".toList "A".toList, shortRow "2".toList []] } =
        .ok { products := [], isValid := false, errorMessage := msgMissingColumns } ∧
      upload exampleId
          { headers := some [colSerial, colName],
            rows := [shortRow "1".toList "A".toList, shortRow "2".toList []] }
          System.empty =
        .ok (rejected msgMissingColumns, System.empty) :=
  upload_missing_column exampleId
    { headers := some [colSerial, colName],
      rows := [shortRow "1".toList "A".toList, shortRow "2".toList []] }
    System.empty [colSerial, colName] rfl (Or.inr (Or.inr (by decide)))

/-- C4 (the code at the failing input): for an empty file the parser emits no `headers`
event, so the column check never runs and `isValid` is still `true` at `end`: the handler
answers 200 with a `requestId`, inserts the Request row and enqueues a job, although the
payload has none of the required columns. -/
theorem empty_file_accepted :
    upload exampleId { headers := none, rows := [] } System.empty =
      .ok (accepted exampleId,
        { db := { requests := [{ id := exampleId, status := .PENDING }], products := [] },
          queue := [{ requestId := exampleId, products := [] }] }) := by
  decide

/-- C5 (the code at the failing input): the header has the three required columns and the
second row has an empty `S. No.`, but the first row is a short line without an
`Input Image Urls` cell: the `data` listener throws a `TypeError` on it and the handler
never answers 400. -/
theorem short_row_before_empty_cell_throws :
    upload exampleId
        { headers := some requiredHeader,
          rows := [shortRow "1".toList "A".toList,
                   exampleRow [] "B".toList "http://b.com/1.jpg".toList] }
        System.empty =
      .error .typeError := by
  decide

end ImageBackend
